import Mathlib

/-!
Verification of `async-utils` (files `src/async_utils/priority_sem.py` and
`src/async_utils/task_cache.py`) against its natural-language specification.

The development shallowly embeds the Python sources:

* `PriorityWaiter` and `pwLt` embed the waiter tuples `(priority, ts, future)`
  and `PriorityWaiter.__lt__` (priority_sem.py lines 34-66), which compares
  only the `(priority, ts)` prefix.  Timestamps come from the event loop's
  monotonic clock `loop.time()`; we model them as integers (only their order
  is ever used by the code).
* `siftdownAux`, `siftupAux`, `heappush`, `heappop` embed CPython's
  `heapq.heappush` / `heapq.heappop` (including `_siftdown` and `_siftup`),
  the external library the semaphore delegates its wait-queue ordering to.
* `SemState`, `wakeLoop1`, `wakeLoop2`, `maybeWake` and the `Step` relation
  embed the semaphore state machine: `__locked`, `__acquire`, `__release`,
  `_maybe_wake` and the cancellation handler (priority_sem.py lines 140-204),
  with the event loop's interleaving of waiter cancellation and resumption
  made explicit as separate transitions.
* The task-cache section embeds `taskcache` / `lrutaskcache` wrappers
  (task_cache.py lines 70-104 and 151-179) at the level of cache keys: the
  external `make_key` collaborator is deterministic, so working with the
  produced keys is faithful.
-/

namespace AsyncUtils

/-- Embeds `PriorityWaiter` (priority_sem.py lines 34-66): a tuple of
priority, loop timestamp, and future.  The future itself is modelled by an
identifier `id` into a side table of future states, since futures are
mutable shared objects. -/
structure PriorityWaiter where
  priority : Int
  ts : Int
  id : Nat
deriving DecidableEq, Repr

instance : Inhabited PriorityWaiter := ⟨⟨0, 0, 0⟩⟩

/-- Embeds `PriorityWaiter.__lt__` (priority_sem.py lines 63-66):
`self[:2] < other[:2]`, i.e. lexicographic comparison of `(priority, ts)`
only; the future component is not compared. -/
def pwLt (a b : PriorityWaiter) : Bool :=
  if a.priority < b.priority then true
  else if b.priority < a.priority then false
  else decide (a.ts < b.ts)

theorem pwLt_irrefl (a : PriorityWaiter) : pwLt a a = false := by
  simp [pwLt]

theorem pwLt_asymm {a b : PriorityWaiter} (h : pwLt a b = true) : pwLt b a = false := by
  simp only [pwLt] at h ⊢
  split at h <;> split <;> simp_all <;> omega

theorem pwLt_trans {a b c : PriorityWaiter} (h₁ : pwLt a b = true) (h₂ : pwLt b c = true) :
    pwLt a c = true := by
  simp only [pwLt] at h₁ h₂ ⊢
  split at h₁ <;> split at h₂ <;> split <;> simp_all <;> omega

theorem pwLt_not_trans {a b c : PriorityWaiter} (h₁ : pwLt a b = false)
    (h₂ : pwLt b c = false) : pwLt a c = false := by
  simp only [pwLt] at h₁ h₂ ⊢
  split at h₁ <;> split at h₂ <;> split <;> simp_all <;> omega

/-- If `x` is not below `p` but `n` is strictly below `p`, then `x` is not
below `n`. -/
theorem pwLt_no {x p n : PriorityWaiter} (h₁ : pwLt x p = false) (h₂ : pwLt n p = true) :
    pwLt x n = false := by
  cases hxn : pwLt x n with
  | false => rfl
  | true => rw [pwLt_trans hxn h₂] at h₁; cases h₁

/-- Totality of the `(priority, ts)` comparison on distinct keys. -/
theorem pwLt_total {a b : PriorityWaiter}
    (h : a.priority ≠ b.priority ∨ a.ts ≠ b.ts) :
    pwLt a b = true ∨ pwLt b a = true := by
  simp only [pwLt]
  rcases h with h | h
  · split <;> split <;> simp_all <;> omega
  · split <;> split <;> simp_all <;> omega

/-! ### The `heapq` collaborator

The semaphore keeps its waiters in a binary min-heap maintained by CPython's
`heapq.heappush` and `heapq.heappop`.  The definitions below are a direct
transcription of `Lib/heapq.py` (`heappush`, `heappop`, `_siftdown`,
`_siftup`) specialised to lists of `PriorityWaiter` compared with `pwLt`,
with 0-based indices: the children of `i` are `2*i+1` and `2*i+2`, the
parent of `i` is `(i-1)/2`. -/

/-- The parent index of heap slot `i` (`(pos - 1) >> 1` in `heapq`). -/
def parentIdx (i : Nat) : Nat := (i - 1) / 2

/-- Embeds `heapq._siftdown(heap, startpos, pos)` where `newitem` is the
element conceptually stored at `pos`: walk from `pos` towards `startpos`,
moving parents down while `newitem` is strictly below them, and finally
store `newitem` at the reached position. -/
def siftdownAux (newitem : PriorityWaiter) (heap : List PriorityWaiter)
    (startpos pos : Nat) : List PriorityWaiter :=
  if _h : startpos < pos then
    if pwLt newitem (heap.getD (parentIdx pos) newitem) then
      siftdownAux newitem (heap.set pos (heap.getD (parentIdx pos) newitem)) startpos
        (parentIdx pos)
    else
      heap.set pos newitem
  else
    heap.set pos newitem
termination_by pos
decreasing_by simp [parentIdx]; omega

/-- The child of `pos` that `heapq._siftup` promotes: the right child when it
exists and the left child is not strictly below it, the left child
otherwise. -/
def pickChild (newitem : PriorityWaiter) (heap : List PriorityWaiter) (pos : Nat) : Nat :=
  if 2 * pos + 2 < heap.length
      && !(pwLt (heap.getD (2 * pos + 1) newitem) (heap.getD (2 * pos + 2) newitem)) then
    2 * pos + 2
  else
    2 * pos + 1

/-- Embeds `heapq._siftup(heap, pos)` (with its trailing `_siftdown` call):
bubble the hole at `pos` down to a leaf, always promoting the smaller
child, then sift `newitem` (conceptually at the hole) back up. -/
def siftupAux (newitem : PriorityWaiter) (heap : List PriorityWaiter)
    (startpos pos : Nat) : List PriorityWaiter :=
  if _h : 2 * pos + 1 < heap.length then
    siftupAux newitem (heap.set pos (heap.getD (pickChild newitem heap pos) newitem)) startpos
      (pickChild newitem heap pos)
  else
    siftdownAux newitem heap startpos pos
termination_by heap.length - pos
decreasing_by
  simp only [List.length_set, pickChild]
  split <;> omega

/-- Embeds `heapq.heappush(heap, item)`: append `item`, then
`_siftdown(heap, 0, len(heap)-1)`. -/
def heappush (heap : List PriorityWaiter) (item : PriorityWaiter) : List PriorityWaiter :=
  siftdownAux item (heap ++ [item]) 0 heap.length

/-- Embeds `heapq.heappop(heap)`: pop the last element; if the heap is
still non-empty, return the root, move the last element to the root and
`_siftup(heap, 0)`; an empty heap raises `IndexError`, modelled as
`none`. -/
def heappop (heap : List PriorityWaiter) : Option (PriorityWaiter × List PriorityWaiter) :=
  match heap with
  | [] => none
  | x :: xs =>
    let lastelt := (x :: xs).getLast (List.cons_ne_nil x xs)
    match (x :: xs).dropLast with
    | [] => some (lastelt, [])
    | r :: rs => some (r, siftupAux lastelt ((r :: rs).set 0 lastelt) 0 0)

/-! ### List index and permutation helpers -/

theorem getD_eq_getElem {α : Type} (l : List α) (i : Nat) (d : α)
    (h : i < l.length) : l.getD i d = l[i] := by
  simp [List.getD_eq_getElem?_getD, List.getElem?_eq_getElem h]

theorem getD_set_self {α : Type} (l : List α) (i : Nat) (a d : α) (h : i < l.length) :
    (l.set i a).getD i d = a := by
  simp [List.getD_eq_getElem?_getD, List.getElem?_set, h]

theorem getD_set_ne {α : Type} (l : List α) (i j : Nat) (a d : α) (hne : i ≠ j) :
    (l.set i a).getD j d = l.getD j d := by
  simp [List.getD_eq_getElem?_getD, List.getElem?_set, hne]

theorem count_set (l : List PriorityWaiter) (i : Nat) (a x : PriorityWaiter)
    (h : i < l.length) :
    (l.set i a).count x + (if l[i] = x then 1 else 0)
      = l.count x + (if a = x then 1 else 0) := by
  induction l generalizing i with
  | nil => simp at h
  | cons y ys ih =>
    cases i with
    | zero =>
      simp only [List.set_cons_zero, List.getElem_cons_zero, List.count_cons]
      by_cases hya : y = x <;> by_cases hax : a = x <;> simp [hya, hax] <;> omega
    | succ n =>
      have hn : n < ys.length := by simpa using h
      simp only [List.set_cons_succ, List.getElem_cons_succ, List.count_cons]
      have hrec := ih n hn
      by_cases hya : y = x <;> simp [hya] <;> omega

/-- Writing `l[j]` over position `i` and then `x` over position `j` is a
permutation of writing `x` over position `i` directly. -/
theorem set_set_perm (l : List PriorityWaiter) (i j : Nat) (x : PriorityWaiter)
    (hi : i < l.length) (hj : j < l.length) (hij : i ≠ j) :
    List.Perm ((l.set i l[j]).set j x) (l.set i x) := by
  apply List.perm_iff_count.mpr
  intro y
  have hj' : j < (l.set i l[j]).length := by simpa using hj
  have h1 := count_set (l.set i l[j]) j x y hj'
  have h2 := count_set l i (l[j]) y hi
  have h3 := count_set l i x y hi
  have hgj : (l.set i l[j])[j] = l[j] := by
    simp [List.getElem_set, hij]
  rw [hgj] at h1
  omega

theorem siftdownAux_length (n : PriorityWaiter) (l : List PriorityWaiter)
    (s p : Nat) : (siftdownAux n l s p).length = l.length := by
  induction l, s, p using siftdownAux.induct n with
  | case1 heap s p hsp hlt ih =>
    rw [siftdownAux, dif_pos hsp, if_pos hlt]
    rw [ih]
    simp
  | case2 heap s p hsp hlt =>
    rw [siftdownAux, dif_pos hsp, if_neg hlt]
    simp
  | case3 heap s p hsp =>
    rw [siftdownAux, dif_neg hsp]
    simp

theorem siftupAux_length (n : PriorityWaiter) (l : List PriorityWaiter)
    (s p : Nat) : (siftupAux n l s p).length = l.length := by
  induction l, s, p using siftupAux.induct n with
  | case1 heap s p hlt ih =>
    rw [siftupAux, dif_pos hlt]
    rw [ih]
    simp
  | case2 heap s p hlt =>
    rw [siftupAux, dif_neg hlt]
    exact siftdownAux_length n heap s p

theorem pickChild_lt {n : PriorityWaiter} {heap : List PriorityWaiter} {pos : Nat}
    (h : 2 * pos + 1 < heap.length) : pickChild n heap pos < heap.length := by
  unfold pickChild
  split <;> rename_i hc
  · simp only [Bool.and_eq_true, decide_eq_true_eq] at hc
    exact hc.1
  · exact h

theorem pickChild_gt (n : PriorityWaiter) (heap : List PriorityWaiter) (pos : Nat) :
    pos < pickChild n heap pos := by
  unfold pickChild
  split <;> omega

theorem siftdownAux_perm (n : PriorityWaiter) (l : List PriorityWaiter) (s p : Nat)
    (hp : p < l.length) :
    List.Perm (siftdownAux n l s p) (l.set p n) := by
  induction l, s, p using siftdownAux.induct n with
  | case1 heap s p hsp hlt ih =>
    rw [siftdownAux, dif_pos hsp, if_pos hlt]
    have hpar : parentIdx p < p := by simp only [parentIdx]; omega
    have hpp : parentIdx p < heap.length := by omega
    have hpp' : parentIdx p < (heap.set p (heap.getD (parentIdx p) n)).length := by
      simpa using hpp
    refine (ih hpp').trans ?_
    have hne : p ≠ parentIdx p := by omega
    have hperm := set_set_perm heap p (parentIdx p) n hp hpp hne
    rwa [getD_eq_getElem heap (parentIdx p) n hpp]
  | case2 heap s p hsp hlt =>
    rw [siftdownAux, dif_pos hsp, if_neg hlt]
  | case3 heap s p hsp =>
    rw [siftdownAux, dif_neg hsp]

theorem siftupAux_perm (n : PriorityWaiter) (l : List PriorityWaiter) (s p : Nat)
    (hp : p < l.length) :
    List.Perm (siftupAux n l s p) (l.set p n) := by
  induction l, s, p using siftupAux.induct n with
  | case1 heap s p hlt ih =>
    rw [siftupAux, dif_pos hlt]
    have hcp : pickChild n heap p < heap.length := pickChild_lt hlt
    have hcp' : pickChild n heap p < (heap.set p (heap.getD (pickChild n heap p) n)).length := by
      simpa using hcp
    refine (ih hcp').trans ?_
    have hne : p ≠ pickChild n heap p := Nat.ne_of_lt (pickChild_gt n heap p)
    have hperm := set_set_perm heap p (pickChild n heap p) n (by omega) hcp hne
    rwa [getD_eq_getElem heap (pickChild n heap p) n hcp]
  | case2 heap s p hlt =>
    rw [siftupAux, dif_neg hlt]
    exact siftdownAux_perm n heap s p hp

theorem heappush_perm (l : List PriorityWaiter) (x : PriorityWaiter) :
    List.Perm (heappush l x) (x :: l) := by
  unfold heappush
  have h : l.length < (l ++ [x]).length := by simp
  refine (siftdownAux_perm x (l ++ [x]) 0 l.length h).trans ?_
  have hset : (l ++ [x]).set l.length x = l ++ [x] := by
    apply List.ext_getElem (by simp)
    intro i h1 h2
    simp only [List.getElem_set]
    split <;> simp_all
  rw [hset]
  exact List.perm_append_singleton x l

theorem heappush_length (l : List PriorityWaiter) (x : PriorityWaiter) :
    (heappush l x).length = l.length + 1 := by
  have := (heappush_perm l x).length_eq
  simpa using this

theorem heappop_none (l : List PriorityWaiter) : heappop l = none ↔ l = [] := by
  cases l with
  | nil => simp [heappop]
  | cons x xs =>
    simp only [heappop]
    constructor
    · intro h
      split at h <;> cases h
    · intro h
      cases h

theorem heappop_perm (l : List PriorityWaiter) (w : PriorityWaiter)
    (r : List PriorityWaiter) (h : heappop l = some (w, r)) :
    List.Perm (w :: r) l := by
  match l with
  | [] => cases h
  | [x] =>
    simp only [heappop, List.dropLast_single] at h
    obtain ⟨rfl, rfl⟩ := by simpa using h
    simp
  | x :: y :: ys =>
    have hgl := List.getLast_cons_cons x y ys
    simp only [heappop, List.dropLast_cons₂] at h
    obtain ⟨rfl, rfl⟩ := by simpa using h
    have hperm := siftupAux_perm ((x :: y :: ys).getLast (by simp))
      ((x :: (y :: ys).dropLast).set 0 ((x :: y :: ys).getLast (by simp))) 0 0 (by simp)
    rw [List.set_set, List.set_cons_zero] at hperm
    refine (hperm.cons x).trans ?_
    have hlast : (y :: ys).dropLast ++ [(x :: y :: ys).getLast (by simp)] = y :: ys := by
      rw [hgl]
      exact List.dropLast_append_getLast (List.cons_ne_nil y ys)
    refine (List.Perm.cons x (List.perm_append_singleton _ _).symm).trans ?_
    rw [hlast]

theorem heappop_length (l : List PriorityWaiter) (w : PriorityWaiter)
    (r : List PriorityWaiter) (h : heappop l = some (w, r)) :
    r.length + 1 = l.length :=
  (heappop_perm l w r h).length_eq

theorem heappop_mem (l : List PriorityWaiter) (w : PriorityWaiter)
    (r : List PriorityWaiter) (h : heappop l = some (w, r)) :
    w ∈ l ∧ ∀ y ∈ r, y ∈ l := by
  have hp := heappop_perm l w r h
  constructor
  · exact hp.mem_iff.mp (List.mem_cons_self w r)
  · intro y hy
    exact hp.mem_iff.mp (List.mem_cons_of_mem w hy)

theorem getD_congr {α : Type} (l : List α) (i : Nat) (d₁ d₂ : α) (h : i < l.length) :
    l.getD i d₁ = l.getD i d₂ := by
  rw [getD_eq_getElem l i d₁ h, getD_eq_getElem l i d₂ h]

theorem getD_append_left {α : Type} (l l₂ : List α) (i : Nat) (d : α) (h : i < l.length) :
    (l ++ l₂).getD i d = l.getD i d := by
  rw [getD_eq_getElem l i d h, getD_eq_getElem (l ++ l₂) i d (by simp; omega)]
  exact List.getElem_append_left h

theorem getD_dropLast {α : Type} (l : List α) (i : Nat) (d : α)
    (h : i < l.dropLast.length) :
    l.dropLast.getD i d = l.getD i d := by
  have h2 : i < l.length := by simp at h; omega
  rw [getD_eq_getElem l.dropLast i d h, getD_eq_getElem l i d h2]
  exact List.getElem_dropLast l i h

theorem parentIdx_lt {i : Nat} (h : 0 < i) : parentIdx i < i := by
  simp only [parentIdx]; omega

theorem child_of_parentIdx {j p : Nat} (h : 0 < j) (hp : parentIdx j = p) :
    j = 2 * p + 1 ∨ j = 2 * p + 2 := by
  simp only [parentIdx] at hp; omega

theorem parentIdx_of_child {j p : Nat} (h : j = 2 * p + 1 ∨ j = 2 * p + 2) :
    parentIdx j = p := by
  simp only [parentIdx]; omega

/-! ### The binary-heap invariant

`heapInv l` is the structural invariant `heapq` maintains: no element is
strictly below (`pwLt`) its parent.  The spec (section 3, Wait Heap) claims
the heap property holds after every mutation; the lemmas below prove it for
the transcription of `heappush` and `heappop`. -/

def heapInv (l : List PriorityWaiter) : Prop :=
  ∀ i, i < l.length → 0 < i →
    pwLt (l.getD i default) (l.getD (parentIdx i) default) = false

instance heapInv_decidable (l : List PriorityWaiter) : Decidable (heapInv l) :=
  Nat.decidableBallLT l.length fun i _ =>
    0 < i → pwLt (l.getD i default) (l.getD (parentIdx i) default) = false

theorem heapInv_nil : heapInv [] := by
  intro i hi
  simp at hi

/-- In a heap, the root is a minimum: no element is strictly below it. -/
theorem heapInv_root_min (l : List PriorityWaiter) (hinv : heapInv l) :
    ∀ i, i < l.length → pwLt (l.getD i default) (l.getD 0 default) = false := by
  intro i
  induction i using Nat.strong_induction_on with
  | _ i ih =>
    intro hi
    rcases Nat.eq_zero_or_pos i with h0 | hpos
    · subst h0
      exact pwLt_irrefl _
    · have h1 := hinv i hi hpos
      have h2 := ih (parentIdx i) (parentIdx_lt hpos)
        (lt_trans (parentIdx_lt hpos) hi)
      exact pwLt_not_trans h1 h2

/-- Invariant propagation through `_siftdown` (sift towards the root).
Preconditions: the heap property holds everywhere except at the hole `p`;
both children of `p` (if present) are not below `newitem` nor below the
parent of `p`. -/
theorem siftdownAux_inv (n : PriorityWaiter) (l : List PriorityWaiter) (s p : Nat) :
    s = 0 → p < l.length →
    (∀ j, 0 < j → j < l.length → j ≠ p →
        pwLt (l.getD j default) (l.getD (parentIdx j) default) = false) →
    (∀ c, (c = 2 * p + 1 ∨ c = 2 * p + 2) → c < l.length →
        pwLt (l.getD c default) n = false) →
    (0 < p → ∀ c, (c = 2 * p + 1 ∨ c = 2 * p + 2) → c < l.length →
        pwLt (l.getD c default) (l.getD (parentIdx p) default) = false) →
    heapInv (siftdownAux n l s p) := by
  induction l, s, p using siftdownAux.induct n with
  | case1 heap s p hsp hlt ih =>
    intro hs hp hA hB hC
    subst hs
    have hppos : 0 < p := hsp
    have hparlt : parentIdx p < p := parentIdx_lt hppos
    have hpplen : parentIdx p < heap.length := by omega
    have hpar_congr : heap.getD (parentIdx p) n = heap.getD (parentIdx p) default :=
      getD_congr heap (parentIdx p) n default hpplen
    set par := heap.getD (parentIdx p) default with hpar_def
    have hlt' : pwLt n par = true := by rw [← hpar_congr]; exact hlt
    -- value lookup facts on the updated list
    have hset_at : ∀ d, (heap.set p (heap.getD (parentIdx p) n)).getD p d = par := by
      intro d
      rw [getD_set_self heap p _ d hp, hpar_congr]
    have hset_ne : ∀ k d, k ≠ p → (heap.set p (heap.getD (parentIdx p) n)).getD k d
        = heap.getD k d := by
      intro k d hk
      exact getD_set_ne heap p k _ d (fun hpk => hk hpk.symm)
    rw [siftdownAux, dif_pos hsp, if_pos hlt]
    apply ih rfl (by simpa using hpplen)
    · -- A for the recursive call at parentIdx p
      intro j hj0 hjlen hjne
      rw [List.length_set] at hjlen
      by_cases hjp : j = p
      · rw [hjp, hset_at default,
          hset_ne (parentIdx p) default (by omega)]
        rw [← hpar_def]
        exact pwLt_irrefl par
      · rw [hset_ne j default hjp]
        by_cases hpj : parentIdx j = p
        · rw [hpj, hset_at default]
          exact hC hppos j (child_of_parentIdx hj0 hpj) hjlen
        · rw [hset_ne (parentIdx j) default hpj]
          exact hA j hj0 hjlen hjp
    · -- B for the recursive call: children of parentIdx p are not below n
      intro c hc hclen
      rw [List.length_set] at hclen
      by_cases hcp : c = p
      · rw [hcp, hset_at default]
        exact pwLt_asymm hlt'
      · rw [hset_ne c default hcp]
        have hc0 : 0 < c := by omega
        have h1 := hA c hc0 hclen hcp
        rw [parentIdx_of_child hc, ← hpar_def] at h1
        exact pwLt_no h1 hlt'
    · -- C for the recursive call
      intro hpp0 c hc hclen
      rw [List.length_set] at hclen
      have hgrandne : parentIdx (parentIdx p) ≠ p := by
        have := parentIdx_lt hpp0
        omega
      rw [hset_ne (parentIdx (parentIdx p)) default hgrandne]
      have hq := hA (parentIdx p) hpp0 hpplen (by omega)
      rw [← hpar_def] at hq
      by_cases hcp : c = p
      · rw [hcp, hset_at default]
        exact hq
      · rw [hset_ne c default hcp]
        have hc0 : 0 < c := by omega
        have h1 := hA c hc0 hclen hcp
        rw [parentIdx_of_child hc, ← hpar_def] at h1
        exact pwLt_not_trans h1 hq
  | case2 heap s p hsp hlt =>
    intro hs hp hA hB hC
    subst hs
    have hppos : 0 < p := hsp
    have hpplen : parentIdx p < heap.length := by
      have := parentIdx_lt hppos
      omega
    rw [siftdownAux, dif_pos hsp, if_neg hlt]
    intro j hjlen hj0
    rw [List.length_set] at hjlen
    by_cases hjp : j = p
    · rw [hjp, getD_set_self heap p n default hp,
        getD_set_ne heap p (parentIdx p) n default
          (by have := parentIdx_lt hppos; omega)]
      have hval : pwLt n (heap.getD (parentIdx p) n) = false := by
        cases hval : pwLt n (heap.getD (parentIdx p) n) with
        | false => rfl
        | true => exact absurd hval hlt
      rwa [getD_congr heap (parentIdx p) n default hpplen] at hval
    · rw [getD_set_ne heap p j n default (fun h => hjp h.symm)]
      by_cases hpj : parentIdx j = p
      · rw [hpj, getD_set_self heap p n default hp]
        exact hB j (child_of_parentIdx hj0 hpj) hjlen
      · rw [getD_set_ne heap p (parentIdx j) n default (fun h => hpj h.symm)]
        exact hA j hj0 hjlen hjp
  | case3 heap s p hsp =>
    intro hs hp hA hB hC
    subst hs
    have hp0 : p = 0 := by omega
    subst hp0
    rw [siftdownAux, dif_neg hsp]
    intro j hjlen hj0
    rw [List.length_set] at hjlen
    have hjne : j ≠ 0 := by omega
    rw [getD_set_ne heap 0 j n default (fun h => hjne h.symm)]
    by_cases hpj : parentIdx j = 0
    · rw [hpj, getD_set_self heap 0 n default hp]
      exact hB j (child_of_parentIdx hj0 hpj) hjlen
    · rw [getD_set_ne heap 0 (parentIdx j) n default (fun h => hpj h.symm)]
      exact hA j hj0 hjlen hjne

theorem pickChild_child (n : PriorityWaiter) (heap : List PriorityWaiter) (pos : Nat) :
    pickChild n heap pos = 2 * pos + 1 ∨ pickChild n heap pos = 2 * pos + 2 := by
  unfold pickChild
  split
  · exact Or.inr rfl
  · exact Or.inl rfl

/-- The promoted child is not above either child: it is a minimal child. -/
theorem pickChild_min (n : PriorityWaiter) (heap : List PriorityWaiter) (pos : Nat)
    (h : 2 * pos + 1 < heap.length) :
    ∀ j, (j = 2 * pos + 1 ∨ j = 2 * pos + 2) → j < heap.length →
    pwLt (heap.getD j default) (heap.getD (pickChild n heap pos) default) = false := by
  intro j hj hjlen
  unfold pickChild
  split <;> rename_i hc
  · simp only [Bool.and_eq_true, Bool.not_eq_true', decide_eq_true_eq] at hc
    rcases hj with hj | hj
    · subst hj
      rw [getD_congr heap (2 * pos + 1) default n h,
        getD_congr heap (2 * pos + 2) default n hc.1]
      exact hc.2
    · subst hj
      exact pwLt_irrefl _
  · simp only [Bool.and_eq_true, Bool.not_eq_true', decide_eq_true_eq, not_and] at hc
    rcases hj with hj | hj
    · subst hj
      exact pwLt_irrefl _
    · subst hj
      have hc2 := hc hjlen
      have hc2' : pwLt (heap.getD (2 * pos + 1) n) (heap.getD (2 * pos + 2) n) = true := by
        cases hval : pwLt (heap.getD (2 * pos + 1) n) (heap.getD (2 * pos + 2) n) with
        | false => exact absurd hval hc2
        | true => rfl
      rw [getD_congr heap (2 * pos + 1) n default h,
        getD_congr heap (2 * pos + 2) n default hjlen] at hc2'
      exact pwLt_asymm hc2'

/-- Invariant propagation through `_siftup`: the heap property may fail only
on the edges into the hole `p`, and the children of `p` are not below the
parent of `p`. -/
theorem siftupAux_inv (n : PriorityWaiter) (l : List PriorityWaiter) (s p : Nat) :
    s = 0 → p < l.length →
    (∀ j, 0 < j → j < l.length → parentIdx j ≠ p →
        pwLt (l.getD j default) (l.getD (parentIdx j) default) = false) →
    (0 < p → ∀ c, (c = 2 * p + 1 ∨ c = 2 * p + 2) → c < l.length →
        pwLt (l.getD c default) (l.getD (parentIdx p) default) = false) →
    heapInv (siftupAux n l s p) := by
  induction l, s, p using siftupAux.induct n with
  | case1 heap s p hlt ih =>
    intro hs hp hA hC
    rw [siftupAux, dif_pos hlt]
    have hcp_child : pickChild n heap p = 2 * p + 1 ∨ pickChild n heap p = 2 * p + 2 :=
      pickChild_child n heap p
    have hcplen : pickChild n heap p < heap.length := pickChild_lt hlt
    have hpcp : p < pickChild n heap p := pickChild_gt n heap p
    have hc_congr : heap.getD (pickChild n heap p) n = heap.getD (pickChild n heap p) default :=
      getD_congr _ _ _ _ hcplen
    have hset_at : ∀ d, (heap.set p (heap.getD (pickChild n heap p) n)).getD p d
        = heap.getD (pickChild n heap p) default := by
      intro d
      rw [getD_set_self heap p _ d hp, hc_congr]
    have hset_ne : ∀ k d, k ≠ p →
        (heap.set p (heap.getD (pickChild n heap p) n)).getD k d = heap.getD k d := by
      intro k d hk
      exact getD_set_ne heap p k _ d (fun h => hk h.symm)
    apply ih hs (by simpa using hcplen)
    · intro j hj0 hjlen hjne
      rw [List.length_set] at hjlen
      by_cases hjp : j = p
      · have hp0 : 0 < p := by omega
        rw [hjp, hset_at default,
          hset_ne (parentIdx p) default (by have := parentIdx_lt hp0; omega)]
        exact hC hp0 (pickChild n heap p) hcp_child hcplen
      · rw [hset_ne j default hjp]
        by_cases hpj : parentIdx j = p
        · rw [hpj, hset_at default]
          exact pickChild_min n heap p hlt j (child_of_parentIdx hj0 hpj) hjlen
        · rw [hset_ne (parentIdx j) default hpj]
          exact hA j hj0 hjlen hpj
    · intro hcp0 g hg hglen
      rw [List.length_set] at hglen
      have hgp : g ≠ p := by rcases hg with hg | hg <;> omega
      have hparcp : parentIdx (pickChild n heap p) = p := parentIdx_of_child hcp_child
      rw [hparcp, hset_at default, hset_ne g default hgp]
      have hg0 : 0 < g := by rcases hg with hg | hg <;> omega
      have h1 := hA g hg0 hglen (by rw [parentIdx_of_child hg]; omega)
      rwa [parentIdx_of_child hg] at h1
  | case2 heap s p hlt =>
    intro hs hp hA hC
    rw [siftupAux, dif_neg hlt]
    apply siftdownAux_inv n heap s p hs hp
    · intro j hj0 hjlen hjne
      by_cases hpj : parentIdx j = p
      · exfalso
        rcases child_of_parentIdx hj0 hpj with hj | hj <;> omega
      · exact hA j hj0 hjlen hpj
    · intro c hc hclen
      exfalso
      rcases hc with hc | hc <;> omega
    · intro hp0 c hc hclen
      exfalso
      rcases hc with hc | hc <;> omega

/-- `heappush` preserves the heap invariant. -/
theorem heappush_inv (l : List PriorityWaiter) (x : PriorityWaiter)
    (h : heapInv l) : heapInv (heappush l x) := by
  unfold heappush
  apply siftdownAux_inv x (l ++ [x]) 0 l.length rfl (by simp)
  · intro j hj0 hjlen hjne
    rw [List.length_append, List.length_singleton] at hjlen
    have hjl : j < l.length := by omega
    have hpl : parentIdx j < l.length := by have := parentIdx_lt hj0; omega
    rw [getD_append_left l [x] j default hjl,
      getD_append_left l [x] (parentIdx j) default hpl]
    exact h j hjl hj0
  · intro c hc hclen
    exfalso
    rw [List.length_append, List.length_singleton] at hclen
    rcases hc with hc | hc <;> omega
  · intro hp0 c hc hclen
    exfalso
    rw [List.length_append, List.length_singleton] at hclen
    rcases hc with hc | hc <;> omega

/-- `heappop` preserves the heap invariant. -/
theorem heappop_inv (l : List PriorityWaiter) (w : PriorityWaiter)
    (r : List PriorityWaiter) (hinv : heapInv l) (h : heappop l = some (w, r)) :
    heapInv r := by
  match l with
  | [] => cases h
  | [x] =>
    simp only [heappop, List.dropLast_single] at h
    obtain ⟨rfl, rfl⟩ := by simpa using h
    exact heapInv_nil
  | x :: y :: ys =>
    simp only [heappop, List.dropLast_cons₂] at h
    rw [Option.some_inj, Prod.mk.injEq] at h
    obtain ⟨rfl, rfl⟩ := h
    apply siftupAux_inv _ _ 0 0 rfl (by simp)
    · intro j hj0 hjlen hjne
      rw [List.length_set] at hjlen
      have hdl : (x :: y :: ys).dropLast = x :: (y :: ys).dropLast := by
        simp [List.dropLast_cons₂]
      have hjd : j < ((x :: y :: ys).dropLast).length := by
        rw [hdl]
        exact hjlen
      have hjfull : j < (x :: y :: ys).length := by
        rw [List.length_dropLast] at hjd
        omega
      have hpd : parentIdx j < ((x :: y :: ys).dropLast).length := by
        have := parentIdx_lt hj0
        omega
      have hpfull : parentIdx j < (x :: y :: ys).length := by
        rw [List.length_dropLast] at hpd
        omega
      rw [getD_set_ne _ 0 j _ default (fun hc => hj0.ne hc),
        getD_set_ne _ 0 (parentIdx j) _ default (fun hc => hjne hc.symm), ← hdl,
        getD_dropLast (x :: y :: ys) j default hjd,
        getD_dropLast (x :: y :: ys) (parentIdx j) default hpd]
      exact hinv j hjfull hj0
    · intro h0
      exact absurd h0 (by omega)

/-- `heappop` returns a minimum element: nothing in the heap is strictly
below the popped element. -/
theorem heappop_min (l : List PriorityWaiter) (w : PriorityWaiter)
    (r : List PriorityWaiter) (hinv : heapInv l) (h : heappop l = some (w, r)) :
    ∀ y ∈ l, pwLt y w = false := by
  intro y hy
  match l with
  | [] => cases h
  | [x] =>
    simp only [heappop, List.dropLast_single] at h
    obtain ⟨rfl, rfl⟩ := by simpa using h
    rcases List.mem_singleton.mp hy with rfl
    exact pwLt_irrefl _
  | x :: y' :: ys =>
    simp only [heappop, List.dropLast_cons₂] at h
    obtain ⟨rfl, rfl⟩ := by simpa using h
    obtain ⟨i, hi, hival⟩ := List.getElem_of_mem hy
    have hmin := heapInv_root_min (x :: y' :: ys) hinv i hi
    rw [getD_eq_getElem _ i default hi, hival,
      getD_eq_getElem _ 0 default (by simp)] at hmin
    simpa using hmin

/-! ### The semaphore state machine

`PrioritySemaphore` (priority_sem.py lines 88-204) is embedded as a state
machine.  Futures are mutable shared objects: waiter `w` stores the index
`w.id` of its future in a side table `infos`.  A future is `pending`,
`resolved` (`set_result` was called) or `fcancelled` (the awaiting task was
cancelled while it was pending).  The caller of a suspended `__acquire` is
`waiting` until its `await waiter` resumes, which happens either normally
(`resumedOk`) or with `CancelledError` (`resumedCancelled`).  `holders`
is a ghost counter of callers that own a permit (fast-path acquirers and
normally-resumed waiters) and have not yet released; `lastTs` is a ghost
record of the last value returned by the monotonic clock `loop.time()`. -/

inductive FutState where
  | pending
  | resolved
  | fcancelled
deriving DecidableEq, Repr

inductive CallerState where
  | waiting
  | resumedOk
  | resumedCancelled
deriving DecidableEq, Repr

structure WaiterInfo where
  fut : FutState
  caller : CallerState
deriving DecidableEq, Repr

instance : Inhabited WaiterInfo := ⟨⟨.pending, .waiting⟩⟩

structure SemState where
  value : Nat
  heap : List PriorityWaiter
  infos : List WaiterInfo
  holders : Nat
  lastTs : Int
deriving DecidableEq, Repr

/-- `asyncio.Future.done()`: true once resolved or cancelled. -/
def futDoneB : FutState → Bool
  | .pending => false
  | .resolved => true
  | .fcancelled => true

/-- `asyncio.Future.cancelled()`. -/
def futCancelledB : FutState → Bool
  | .fcancelled => true
  | .pending => false
  | .resolved => false

def futAt (infos : List WaiterInfo) (id : Nat) : FutState :=
  (infos.getD id default).fut

def callerAt (infos : List WaiterInfo) (id : Nat) : CallerState :=
  (infos.getD id default).caller

def setFut (infos : List WaiterInfo) (id : Nat) (f : FutState) : List WaiterInfo :=
  infos.set id { infos.getD id default with fut := f }

def setCaller (infos : List WaiterInfo) (id : Nat) (c : CallerState) : List WaiterInfo :=
  infos.set id { infos.getD id default with caller := c }

/-- Embeds `PrioritySemaphore.__locked` (lines 140-144):
`self._value == 0 or any(not w.cancelled() for w in (self._waiters or ()))`. -/
def lockedB (s : SemState) : Bool :=
  s.value == 0 || s.heap.any (fun w => !(futCancelledB (futAt s.infos w.id)))

/-- `next_waiter.done() or next_waiter.cancelled()` (line 188): the lazy
invalidation test of `_maybe_wake`. -/
def doneOrCancelledB (infos : List WaiterInfo) (w : PriorityWaiter) : Bool :=
  futDoneB (futAt infos w.id) || futCancelledB (futAt infos w.id)

structure WakeResult where
  value : Nat
  heap : List PriorityWaiter
  infos : List WaiterInfo
  granted : List PriorityWaiter
deriving Repr

/-- The first loop of `_maybe_wake` (lines 185-190):
`while self._value > 0 and self._waiters:` pop the heap; discard the waiter
if it is done or cancelled; otherwise decrement `_value` and resolve its
future (`set_result(None)`). -/
def wakeLoop1 (value : Nat) (heap : List PriorityWaiter) (infos : List WaiterInfo)
    (acc : List PriorityWaiter) : WakeResult :=
  if 0 < value then
    match h : heappop heap with
    | none => ⟨value, heap, infos, acc⟩
    | some (w, rest) =>
      if doneOrCancelledB infos w then
        wakeLoop1 value rest infos acc
      else
        wakeLoop1 (value - 1) rest (setFut infos w.id .resolved) (acc ++ [w])
  else ⟨value, heap, infos, acc⟩
termination_by heap.length
decreasing_by
  all_goals
    have := heappop_length heap w rest h
    omega

/-- The second loop of `_maybe_wake` (lines 192-200): pop done or cancelled
waiters; on finding a live one, push it back and stop. -/
def wakeLoop2 (heap : List PriorityWaiter) (infos : List WaiterInfo) :
    List PriorityWaiter :=
  match h : heappop heap with
  | none => heap
  | some (w, rest) =>
    if doneOrCancelledB infos w then
      wakeLoop2 rest infos
    else
      heappush rest w
termination_by heap.length
decreasing_by
  have := heappop_length heap w rest h
  omega

/-- Embeds `PrioritySemaphore._maybe_wake` (lines 184-200), returning the
updated state together with the list of waiters granted (resolved) by this
call, in grant order. -/
def maybeWake (s : SemState) : SemState × List PriorityWaiter :=
  let r := wakeLoop1 s.value s.heap s.infos []
  let h2 := wakeLoop2 r.heap r.infos
  ({ s with value := r.value, heap := h2, infos := r.infos }, r.granted)

/-- The fast path of `__acquire` (lines 156-158): `if not self.__locked():
self._value -= 1; return True`.  The ghost `holders` counter records the
new permit holder. -/
def fastAcquire (s : SemState) : SemState :=
  { s with value := s.value - 1, holders := s.holders + 1 }

/-- The slow path of `__acquire` (lines 160-169): create a future, read the
clock (`now = loop.time()`), build `PriorityWaiter(priority, now, fut)` and
`heapq.heappush` it. -/
def pushWaiter (s : SemState) (p t : Int) : SemState :=
  { s with
    heap := heappush s.heap ⟨p, t, s.infos.length⟩,
    infos := s.infos ++ [⟨.pending, .waiting⟩],
    lastTs := t }

/-- Embeds `__release` (lines 202-204): `self._value += 1` then
`self._maybe_wake()`.  The releasing holder gives up its permit. -/
def releaseRun (s : SemState) : SemState × List PriorityWaiter :=
  maybeWake { s with value := s.value + 1, holders := s.holders - 1 }

/-- External cancellation of a waiter whose future is still pending: the
future becomes cancelled. -/
def futCancelRun (s : SemState) (id : Nat) : SemState :=
  { s with infos := setFut s.infos id .fcancelled }

/-- Normal resumption of a suspended `__acquire` after its future was
resolved (lines 171-182): `await waiter` returns, the `finally` block runs
`self._maybe_wake()`, and the caller now holds a permit. -/
def resumeOkRun (s : SemState) (id : Nat) : SemState × List PriorityWaiter :=
  maybeWake
    { s with
      infos := setCaller s.infos id .resumedOk,
      holders := s.holders + 1 }

/-- The `except asyncio.CancelledError` handler of `__acquire` (lines
175-178): `if fut.done() and not fut.cancelled(): self._value += 1` before
re-raising. -/
def cancelHandler (fut : FutState) (value : Nat) : Nat :=
  if futDoneB fut && !(futCancelledB fut) then value + 1 else value

/-- Resumption of a suspended `__acquire` with `CancelledError` (lines
175-182): run the handler (returning the permit if a grant raced with the
cancellation), then the `finally` block runs `self._maybe_wake()`. -/
def resumeCancelRun (s : SemState) (id : Nat) : SemState × List PriorityWaiter :=
  maybeWake
    { s with
      value := cancelHandler (futAt s.infos id) s.value,
      infos := setCaller s.infos id .resumedCancelled }

def initState (N : Nat) : SemState := ⟨N, [], [], 0, 0⟩

/-- One transition of the semaphore.  `strict` selects the clock model: the
loop clock is monotone (`false`, what `loop.time()` guarantees) or strictly
increasing between waiter creations (`true`).  The third component lists
the waiters granted during the step.  `release` requires a current permit
holder (`0 < holders`): the public surface pairs acquire and release
through `async with` (`__aenter__`/`__aexit__`, lines 146-151), so only a
caller that acquired releases. -/
inductive Step (strict : Bool) : SemState → SemState → List PriorityWaiter → Prop where
  | acquireFast (s : SemState) :
      lockedB s = false → Step strict s (fastAcquire s) []
  | acquirePush (s : SemState) (p t : Int) :
      lockedB s = true →
      (if strict then s.lastTs < t else s.lastTs ≤ t) →
      Step strict s (pushWaiter s p t) []
  | release (s : SemState) :
      0 < s.holders →
      Step strict s (releaseRun s).1 (releaseRun s).2
  | futCancel (s : SemState) (id : Nat) :
      id < s.infos.length → futAt s.infos id = .pending →
      Step strict s (futCancelRun s id) []
  | resumeOk (s : SemState) (id : Nat) :
      id < s.infos.length → futAt s.infos id = .resolved →
      callerAt s.infos id = .waiting →
      Step strict s (resumeOkRun s id).1 (resumeOkRun s id).2
  | resumeCancel (s : SemState) (id : Nat) :
      id < s.infos.length → futAt s.infos id ≠ .pending →
      callerAt s.infos id = .waiting →
      Step strict s (resumeCancelRun s id).1 (resumeCancelRun s id).2

inductive Reachable (strict : Bool) (N : Nat) : SemState → Prop where
  | init : Reachable strict N (initState N)
  | step (s s' : SemState) (g : List PriorityWaiter) :
      Reachable strict N s → Step strict s s' g → Reachable strict N s'

/-- A waiter whose future was resolved by a grant but whose caller has not
resumed yet: the permit it consumed is in flight. -/
def isInFlight (i : WaiterInfo) : Bool :=
  futDoneB i.fut && !(futCancelledB i.fut) && (i.caller == .waiting)

def inFlight (s : SemState) : Nat := s.infos.countP isInFlight

/-! ### Bookkeeping lemmas for the future side table -/

theorem countP_set {α : Type} (p : α → Bool) (l : List α) (i : Nat) (a : α)
    (h : i < l.length) :
    (l.set i a).countP p + (if p l[i] then 1 else 0)
      = l.countP p + (if p a then 1 else 0) := by
  induction l generalizing i with
  | nil => simp at h
  | cons y ys ih =>
    cases i with
    | zero =>
      simp only [List.set_cons_zero, List.getElem_cons_zero, List.countP_cons]
      by_cases hy : p y <;> by_cases ha : p a <;> simp [hy, ha] <;> omega
    | succ n =>
      have hn : n < ys.length := by simpa using h
      simp only [List.set_cons_succ, List.getElem_cons_succ, List.countP_cons]
      have hrec := ih n hn
      by_cases hy : p y <;> simp [hy] <;> omega

theorem setFut_length (i : List WaiterInfo) (id : Nat) (f : FutState) :
    (setFut i id f).length = i.length := by
  simp [setFut]

theorem setCaller_length (i : List WaiterInfo) (id : Nat) (c : CallerState) :
    (setCaller i id c).length = i.length := by
  simp [setCaller]

theorem futAt_setFut_self (i : List WaiterInfo) (id : Nat) (f : FutState)
    (h : id < i.length) : futAt (setFut i id f) id = f := by
  simp only [futAt, setFut]
  rw [getD_set_self _ _ _ _ (by simpa using h)]

theorem futAt_setFut_ne (i : List WaiterInfo) (id k : Nat) (f : FutState)
    (h : k ≠ id) : futAt (setFut i id f) k = futAt i k := by
  simp only [futAt, setFut]
  rw [getD_set_ne _ _ _ _ _ (fun hc => h hc.symm)]

theorem setFut_oob (i : List WaiterInfo) (id : Nat) (f : FutState)
    (h : ¬ id < i.length) : setFut i id f = i := by
  simp only [setFut]
  exact List.set_eq_of_length_le (by omega)

theorem callerAt_setFut (i : List WaiterInfo) (id k : Nat) (f : FutState) :
    callerAt (setFut i id f) k = callerAt i k := by
  by_cases hlen : id < i.length
  · by_cases hk : k = id
    · subst hk
      simp only [callerAt, setFut]
      rw [getD_set_self _ _ _ _ (by simpa using hlen)]
    · simp only [callerAt, setFut]
      rw [getD_set_ne _ _ _ _ _ (fun hc => hk hc.symm)]
  · rw [setFut_oob i id f hlen]

theorem futAt_setCaller (i : List WaiterInfo) (id k : Nat) (c : CallerState) :
    futAt (setCaller i id c) k = futAt i k := by
  by_cases hlen : id < i.length
  · by_cases hk : k = id
    · subst hk
      simp only [futAt, setCaller]
      rw [getD_set_self _ _ _ _ (by simpa using hlen)]
    · simp only [futAt, setCaller]
      rw [getD_set_ne _ _ _ _ _ (fun hc => hk hc.symm)]
  · simp only [setCaller]
    rw [List.set_eq_of_length_le (by omega)]

theorem callerAt_setCaller_self (i : List WaiterInfo) (id : Nat) (c : CallerState)
    (h : id < i.length) : callerAt (setCaller i id c) id = c := by
  simp only [callerAt, setCaller]
  rw [getD_set_self _ _ _ _ (by simpa using h)]

theorem callerAt_setCaller_ne (i : List WaiterInfo) (id k : Nat) (c : CallerState)
    (h : k ≠ id) : callerAt (setCaller i id c) k = callerAt i k := by
  simp only [callerAt, setCaller]
  rw [getD_set_ne _ _ _ _ _ (fun hc => h hc.symm)]

/-! ### Unfolding equations for the `_maybe_wake` loops -/


theorem wakeLoop1_eq_zero (v : Nat) (h : List PriorityWaiter) (i : List WaiterInfo)
    (a : List PriorityWaiter) (hv : ¬ 0 < v) :
    wakeLoop1 v h i a = ⟨v, h, i, a⟩ := by
  rw [wakeLoop1, if_neg hv]

theorem wakeLoop1_eq_none (v : Nat) (h : List PriorityWaiter) (i : List WaiterInfo)
    (a : List PriorityWaiter) (hv : 0 < v) (hp : heappop h = none) :
    wakeLoop1 v h i a = ⟨v, h, i, a⟩ := by
  rw [wakeLoop1, if_pos hv]
  split
  · rfl
  · rename_i w rest heq
    rw [hp] at heq
    cases heq

theorem wakeLoop1_eq_done (v : Nat) (h : List PriorityWaiter) (i : List WaiterInfo)
    (a : List PriorityWaiter) (w : PriorityWaiter) (rest : List PriorityWaiter)
    (hv : 0 < v) (hp : heappop h = some (w, rest)) (hd : doneOrCancelledB i w = true) :
    wakeLoop1 v h i a = wakeLoop1 v rest i a := by
  rw [wakeLoop1, if_pos hv]
  split
  · rename_i heq
    rw [hp] at heq
    cases heq
  · rename_i w' rest' heq
    rw [hp] at heq
    injection heq with heq
    injection heq with h1 h2
    subst h1
    subst h2
    rw [if_pos hd]

theorem wakeLoop1_eq_live (v : Nat) (h : List PriorityWaiter) (i : List WaiterInfo)
    (a : List PriorityWaiter) (w : PriorityWaiter) (rest : List PriorityWaiter)
    (hv : 0 < v) (hp : heappop h = some (w, rest)) (hd : doneOrCancelledB i w = false) :
    wakeLoop1 v h i a = wakeLoop1 (v - 1) rest (setFut i w.id .resolved) (a ++ [w]) := by
  rw [wakeLoop1, if_pos hv]
  split
  · rename_i heq
    rw [hp] at heq
    cases heq
  · rename_i w' rest' heq
    rw [hp] at heq
    injection heq with heq
    injection heq with h1 h2
    subst h1
    subst h2
    rw [if_neg (by rw [hd]; exact Bool.false_ne_true)]

theorem wakeLoop2_eq_none (h : List PriorityWaiter) (i : List WaiterInfo)
    (hp : heappop h = none) : wakeLoop2 h i = h := by
  rw [wakeLoop2]
  split
  · rfl
  · rename_i w rest heq
    rw [hp] at heq
    cases heq

theorem wakeLoop2_eq_done (h : List PriorityWaiter) (i : List WaiterInfo)
    (w : PriorityWaiter) (rest : List PriorityWaiter)
    (hp : heappop h = some (w, rest)) (hd : doneOrCancelledB i w = true) :
    wakeLoop2 h i = wakeLoop2 rest i := by
  rw [wakeLoop2]
  split
  · rename_i heq
    rw [hp] at heq
    cases heq
  · rename_i w' rest' heq
    rw [hp] at heq
    injection heq with heq
    injection heq with h1 h2
    subst h1
    subst h2
    rw [if_pos hd]

theorem wakeLoop2_eq_live (h : List PriorityWaiter) (i : List WaiterInfo)
    (w : PriorityWaiter) (rest : List PriorityWaiter)
    (hp : heappop h = some (w, rest)) (hd : doneOrCancelledB i w = false) :
    wakeLoop2 h i = heappush rest w := by
  rw [wakeLoop2]
  split
  · rename_i heq
    rw [hp] at heq
    cases heq
  · rename_i w' rest' heq
    rw [hp] at heq
    injection heq with heq
    injection heq with h1 h2
    subst h1
    subst h2
    rw [if_neg (by rw [hd]; exact Bool.false_ne_true)]

/-! ### Behaviour of the first `_maybe_wake` loop -/

theorem wakeLoop1_infos_length (v : Nat) (h : List PriorityWaiter)
    (i : List WaiterInfo) (a : List PriorityWaiter) :
    (wakeLoop1 v h i a).infos.length = i.length := by
  induction v, h, i, a using wakeLoop1.induct with
  | case1 v h i a hv hp => rw [wakeLoop1_eq_none v h i a hv hp]
  | case2 v h i a hv w rest hp hd ih =>
    rw [wakeLoop1_eq_done v h i a w rest hv hp hd]
    exact ih
  | case3 v h i a hv w rest hp hd ih =>
    rw [wakeLoop1_eq_live v h i a w rest hv hp (by simpa using hd)]
    rw [ih, setFut_length]
  | case4 v h i a hv => rw [wakeLoop1_eq_zero v h i a hv]

theorem wakeLoop1_callers (v : Nat) (h : List PriorityWaiter)
    (i : List WaiterInfo) (a : List PriorityWaiter) (k : Nat) :
    callerAt (wakeLoop1 v h i a).infos k = callerAt i k := by
  induction v, h, i, a using wakeLoop1.induct with
  | case1 v h i a hv hp => rw [wakeLoop1_eq_none v h i a hv hp]
  | case2 v h i a hv w rest hp hd ih =>
    rw [wakeLoop1_eq_done v h i a w rest hv hp hd]
    exact ih
  | case3 v h i a hv w rest hp hd ih =>
    rw [wakeLoop1_eq_live v h i a w rest hv hp (by simpa using hd)]
    rw [ih, callerAt_setFut]
  | case4 v h i a hv => rw [wakeLoop1_eq_zero v h i a hv]

/-- The first loop only moves futures from pending to resolved. -/
theorem wakeLoop1_fut_trans (v : Nat) (h : List PriorityWaiter)
    (i : List WaiterInfo) (a : List PriorityWaiter) (k : Nat) :
    futAt (wakeLoop1 v h i a).infos k = futAt i k
      ∨ (futAt i k = .pending ∧ futAt (wakeLoop1 v h i a).infos k = .resolved) := by
  induction v, h, i, a using wakeLoop1.induct with
  | case1 v h i a hv hp => rw [wakeLoop1_eq_none v h i a hv hp]; exact Or.inl rfl
  | case2 v h i a hv w rest hp hd ih =>
    rw [wakeLoop1_eq_done v h i a w rest hv hp hd]
    exact ih
  | case3 v h i a hv w rest hp hd ih =>
    rw [wakeLoop1_eq_live v h i a w rest hv hp (by simpa using hd)]
    have hd' : doneOrCancelledB i w = false := by simpa using hd
    have hpend : futAt i w.id = .pending := by
      simp only [doneOrCancelledB, Bool.or_eq_false_iff] at hd'
      cases hfut : futAt i w.id <;> rw [hfut] at hd' <;> simp [futDoneB, futCancelledB] at hd' ⊢
    by_cases hk : k = w.id
    · subst hk
      rcases ih with ih | ih
      · by_cases hlen : w.id < i.length
        · rw [futAt_setFut_self i w.id _ hlen] at ih
          exact Or.inr ⟨hpend, ih⟩
        · rw [setFut_oob i w.id _ hlen] at ih ⊢
          exact Or.inl ih
      · exact Or.inr ⟨hpend, ih.2⟩
    · rcases ih with ih | ih
      · rw [futAt_setFut_ne i w.id k _ hk] at ih
        exact Or.inl ih
      · rw [futAt_setFut_ne i w.id k _ hk] at ih
        exact Or.inr ih
  | case4 v h i a hv => rw [wakeLoop1_eq_zero v h i a hv]; exact Or.inl rfl

/-- Once resolved, a future stays resolved through the first loop. -/
theorem wakeLoop1_fut_resolved (v : Nat) (h : List PriorityWaiter)
    (i : List WaiterInfo) (a : List PriorityWaiter) (k : Nat)
    (hres : futAt i k = .resolved) :
    futAt (wakeLoop1 v h i a).infos k = .resolved := by
  rcases wakeLoop1_fut_trans v h i a k with ht | ht
  · rw [ht, hres]
  · rw [hres] at ht
    cases ht.1

theorem wakeLoop1_value_le (v : Nat) (h : List PriorityWaiter)
    (i : List WaiterInfo) (a : List PriorityWaiter) :
    (wakeLoop1 v h i a).value ≤ v := by
  induction v, h, i, a using wakeLoop1.induct with
  | case1 v h i a hv hp => rw [wakeLoop1_eq_none v h i a hv hp]
  | case2 v h i a hv w rest hp hd ih =>
    rw [wakeLoop1_eq_done v h i a w rest hv hp hd]
    exact ih
  | case3 v h i a hv w rest hp hd ih =>
    rw [wakeLoop1_eq_live v h i a w rest hv hp (by simpa using hd)]
    omega
  | case4 v h i a hv => rw [wakeLoop1_eq_zero v h i a hv]

/-- When the first loop stops with permits left, it has emptied the heap. -/
theorem wakeLoop1_empty (v : Nat) (h : List PriorityWaiter)
    (i : List WaiterInfo) (a : List PriorityWaiter) :
    0 < (wakeLoop1 v h i a).value → (wakeLoop1 v h i a).heap = [] := by
  induction v, h, i, a using wakeLoop1.induct with
  | case1 v h i a hv hp =>
    rw [wakeLoop1_eq_none v h i a hv hp]
    intro hv2
    exact (heappop_none h).mp hp
  | case2 v h i a hv w rest hp hd ih =>
    rw [wakeLoop1_eq_done v h i a w rest hv hp hd]
    exact ih
  | case3 v h i a hv w rest hp hd ih =>
    rw [wakeLoop1_eq_live v h i a w rest hv hp (by simpa using hd)]
    exact ih
  | case4 v h i a hv =>
    rw [wakeLoop1_eq_zero v h i a hv]
    intro hv2
    exact absurd hv2 hv

theorem wakeLoop1_hinv (v : Nat) (h : List PriorityWaiter)
    (i : List WaiterInfo) (a : List PriorityWaiter) (hi : heapInv h) :
    heapInv (wakeLoop1 v h i a).heap := by
  induction v, h, i, a using wakeLoop1.induct with
  | case1 v h i a hv hp => rw [wakeLoop1_eq_none v h i a hv hp]; exact hi
  | case2 v h i a hv w rest hp hd ih =>
    rw [wakeLoop1_eq_done v h i a w rest hv hp hd]
    exact ih (heappop_inv h w rest hi hp)
  | case3 v h i a hv w rest hp hd ih =>
    rw [wakeLoop1_eq_live v h i a w rest hv hp (by simpa using hd)]
    exact ih (heappop_inv h w rest hi hp)
  | case4 v h i a hv => rw [wakeLoop1_eq_zero v h i a hv]; exact hi

theorem wakeLoop1_mem (v : Nat) (h : List PriorityWaiter)
    (i : List WaiterInfo) (a : List PriorityWaiter) :
    ∀ u ∈ (wakeLoop1 v h i a).heap, u ∈ h := by
  induction v, h, i, a using wakeLoop1.induct with
  | case1 v h i a hv hp =>
    rw [wakeLoop1_eq_none v h i a hv hp]
    intro u hu
    exact hu
  | case2 v h i a hv w rest hp hd ih =>
    rw [wakeLoop1_eq_done v h i a w rest hv hp hd]
    intro u hu
    exact (heappop_mem h w rest hp).2 u (ih u hu)
  | case3 v h i a hv w rest hp hd ih =>
    rw [wakeLoop1_eq_live v h i a w rest hv hp (by simpa using hd)]
    intro u hu
    exact (heappop_mem h w rest hp).2 u (ih u hu)
  | case4 v h i a hv =>
    rw [wakeLoop1_eq_zero v h i a hv]
    intro u hu
    exact hu

theorem wakeLoop1_map_nodup {α : Type} (f : PriorityWaiter → α) (v : Nat)
    (h : List PriorityWaiter) (i : List WaiterInfo) (a : List PriorityWaiter)
    (hn : (h.map f).Nodup) :
    ((wakeLoop1 v h i a).heap.map f).Nodup := by
  induction v, h, i, a using wakeLoop1.induct with
  | case1 v h i a hv hp => rw [wakeLoop1_eq_none v h i a hv hp]; exact hn
  | case2 v h i a hv w rest hp hd ih =>
    rw [wakeLoop1_eq_done v h i a w rest hv hp hd]
    have hperm := (heappop_perm h w rest hp).map f
    have := hn.perm hperm.symm
    exact ih (List.Nodup.of_cons this)
  | case3 v h i a hv w rest hp hd ih =>
    rw [wakeLoop1_eq_live v h i a w rest hv hp (by simpa using hd)]
    have hperm := (heappop_perm h w rest hp).map f
    have := hn.perm hperm.symm
    exact ih (List.Nodup.of_cons this)
  | case4 v h i a hv => rw [wakeLoop1_eq_zero v h i a hv]; exact hn

/-- Grant accounting: the grants of the first loop extend the accumulator,
and each grant consumed exactly one permit. -/
theorem wakeLoop1_granted (v : Nat) (h : List PriorityWaiter)
    (i : List WaiterInfo) (a : List PriorityWaiter) :
    ∃ g, (wakeLoop1 v h i a).granted = a ++ g
      ∧ (wakeLoop1 v h i a).value + g.length = v := by
  induction v, h, i, a using wakeLoop1.induct with
  | case1 v h i a hv hp =>
    rw [wakeLoop1_eq_none v h i a hv hp]
    exact ⟨[], by simp⟩
  | case2 v h i a hv w rest hp hd ih =>
    rw [wakeLoop1_eq_done v h i a w rest hv hp hd]
    exact ih
  | case3 v h i a hv w rest hp hd ih =>
    rw [wakeLoop1_eq_live v h i a w rest hv hp (by simpa using hd)]
    obtain ⟨g, hg1, hg2⟩ := ih
    refine ⟨w :: g, ?_, ?_⟩
    · rw [hg1]
      simp
    · simp only [List.length_cons]
      omega
  | case4 v h i a hv =>
    rw [wakeLoop1_eq_zero v h i a hv]
    exact ⟨[], by simp⟩

theorem isInFlight_pending {e : WaiterInfo} (h : e.fut = .pending) :
    isInFlight e = false := by
  simp [isInFlight, h, futDoneB]

theorem futAt_eq_getElem (i : List WaiterInfo) (k : Nat) (h : k < i.length) :
    futAt i k = i[k].fut := by
  simp only [futAt]
  rw [getD_eq_getElem i k default h]

theorem callerAt_eq_getElem (i : List WaiterInfo) (k : Nat) (h : k < i.length) :
    callerAt i k = i[k].caller := by
  simp only [callerAt]
  rw [getD_eq_getElem i k default h]

/-- Granting a pending waiter whose caller is waiting moves one permit into
flight. -/
theorem inFlightL_grant (i : List WaiterInfo) (id : Nat) (hlen : id < i.length)
    (hpend : futAt i id = .pending) (hwait : callerAt i id = .waiting) :
    (setFut i id .resolved).countP isInFlight = i.countP isInFlight + 1 := by
  have hc := countP_set isInFlight i id
    (WaiterInfo.mk .resolved (i.getD id default).caller) hlen
  have hold : isInFlight i[id] = false := by
    apply isInFlight_pending
    rw [← futAt_eq_getElem i id hlen]
    exact hpend
  have hnew : isInFlight (WaiterInfo.mk .resolved (i.getD id default).caller) = true := by
    simp only [isInFlight, futDoneB, futCancelledB, Bool.and_eq_true, beq_iff_eq]
    exact ⟨by simp, hwait⟩
  rw [hold, hnew] at hc
  have h0 : (if (false = true) then 1 else 0) = 0 := rfl
  have h1 : (if (true = true) then 1 else 0) = 1 := rfl
  rw [h0, h1] at hc
  simp only [setFut]
  omega

/-- Permit conservation through the first loop: every grant moves one unit
from `value` to in-flight. -/
theorem wakeLoop1_acc (v : Nat) (h : List PriorityWaiter)
    (i : List WaiterInfo) (a : List PriorityWaiter)
    (hids : ∀ w ∈ h, w.id < i.length)
    (hpw : ∀ k, k < i.length → futAt i k = .pending → callerAt i k = .waiting) :
    (wakeLoop1 v h i a).value + (wakeLoop1 v h i a).infos.countP isInFlight
      = v + i.countP isInFlight := by
  induction v, h, i, a using wakeLoop1.induct with
  | case1 v h i a hv hp => rw [wakeLoop1_eq_none v h i a hv hp]
  | case2 v h i a hv w rest hp hd ih =>
    rw [wakeLoop1_eq_done v h i a w rest hv hp hd]
    exact ih (fun u hu => hids u ((heappop_mem h w rest hp).2 u hu)) hpw
  | case3 v h i a hv w rest hp hd ih =>
    rw [wakeLoop1_eq_live v h i a w rest hv hp (by simpa using hd)]
    have hd' : doneOrCancelledB i w = false := by simpa using hd
    have hpend : futAt i w.id = .pending := by
      simp only [doneOrCancelledB, Bool.or_eq_false_iff] at hd'
      cases hfut : futAt i w.id <;> rw [hfut] at hd' <;>
        simp [futDoneB, futCancelledB] at hd' ⊢
    have hwlen : w.id < i.length := hids w (heappop_mem h w rest hp).1
    have hwait : callerAt i w.id = .waiting := hpw w.id hwlen hpend
    have hrec := ih (fun u hu => by
        rw [setFut_length]
        exact hids u ((heappop_mem h w rest hp).2 u hu))
      (fun k hk hkp => by
        rw [setFut_length] at hk
        by_cases hkw : k = w.id
        · rw [hkw, futAt_setFut_self i w.id _ hwlen] at hkp
          cases hkp
        · rw [futAt_setFut_ne i w.id k _ hkw] at hkp
          rw [callerAt_setFut]
          exact hpw k hk hkp)
    rw [inFlightL_grant i w.id hwlen hpend hwait] at hrec
    omega
  | case4 v h i a hv => rw [wakeLoop1_eq_zero v h i a hv]

/-- The first loop never makes a heap member resolved: resolved waiters are
granted and leave the heap. -/
theorem wakeLoop1_no_resolved (v : Nat) (h : List PriorityWaiter)
    (i : List WaiterInfo) (a : List PriorityWaiter)
    (hnr : ∀ w ∈ h, futAt i w.id ≠ .resolved)
    (hn : (h.map PriorityWaiter.id).Nodup) :
    ∀ w ∈ (wakeLoop1 v h i a).heap, futAt (wakeLoop1 v h i a).infos w.id ≠ .resolved := by
  induction v, h, i, a using wakeLoop1.induct with
  | case1 v h i a hv hp =>
    rw [wakeLoop1_eq_none v h i a hv hp]
    exact hnr
  | case2 v h i a hv w rest hp hd ih =>
    rw [wakeLoop1_eq_done v h i a w rest hv hp hd]
    have hperm := (heappop_perm h w rest hp).map PriorityWaiter.id
    exact ih (fun u hu => hnr u ((heappop_mem h w rest hp).2 u hu))
      (List.Nodup.of_cons (hn.perm hperm.symm))
  | case3 v h i a hv w rest hp hd ih =>
    rw [wakeLoop1_eq_live v h i a w rest hv hp (by simpa using hd)]
    have hperm := (heappop_perm h w rest hp).map PriorityWaiter.id
    have hn' : (PriorityWaiter.id w :: rest.map PriorityWaiter.id).Nodup :=
      hn.perm hperm.symm
    apply ih
    · intro u hu
      have hune : u.id ≠ w.id := by
        intro hemem
        have : PriorityWaiter.id w ∈ rest.map PriorityWaiter.id :=
          List.mem_map.mpr ⟨u, hu, hemem⟩
        exact (List.nodup_cons.mp hn').1 this
      rw [futAt_setFut_ne i w.id u.id _ hune]
      exact hnr u ((heappop_mem h w rest hp).2 u hu)
    · exact List.Nodup.of_cons hn'
  | case4 v h i a hv =>
    rw [wakeLoop1_eq_zero v h i a hv]
    exact hnr

/-- A waiter whose future is still pending after the first loop is still in
the heap. -/
theorem wakeLoop1_pending_in_heap (v : Nat) (h : List PriorityWaiter)
    (i : List WaiterInfo) (a : List PriorityWaiter) (k : Nat)
    (hids : ∀ w ∈ h, w.id < i.length)
    (hw : ∃ w ∈ h, w.id = k)
    (hpend : futAt (wakeLoop1 v h i a).infos k = .pending) :
    ∃ w ∈ (wakeLoop1 v h i a).heap, w.id = k := by
  induction v, h, i, a using wakeLoop1.induct with
  | case1 v h i a hv hp =>
    rw [wakeLoop1_eq_none v h i a hv hp]
    exact hw
  | case2 v h i a hv w rest hp hd ih =>
    rw [wakeLoop1_eq_done v h i a w rest hv hp hd] at hpend ⊢
    obtain ⟨u, hu, huk⟩ := hw
    have humem : u ∈ w :: rest := (heappop_perm h w rest hp).symm.mem_iff.mp hu
    rcases List.mem_cons.mp humem with rfl | hurest
    · exfalso
      have hiAt : futAt i u.id ≠ .pending := by
        simp only [doneOrCancelledB, Bool.or_eq_true] at hd
        rcases hd with hd | hd <;>
          (cases hfut : futAt i u.id <;> rw [hfut] at hd <;>
            simp [futDoneB, futCancelledB] at hd <;> simp)
      rcases wakeLoop1_fut_trans v rest i a k with ht | ht
      · rw [ht] at hpend
        rw [huk] at hiAt
        exact hiAt hpend
      · rw [huk] at hiAt
        exact hiAt ht.1
    · exact ih (fun x hx => hids x ((heappop_mem h w rest hp).2 x hx))
        ⟨u, hurest, huk⟩ hpend
  | case3 v h i a hv w rest hp hd ih =>
    rw [wakeLoop1_eq_live v h i a w rest hv hp (by simpa using hd)] at hpend ⊢
    obtain ⟨u, hu, huk⟩ := hw
    have humem : u ∈ w :: rest := (heappop_perm h w rest hp).symm.mem_iff.mp hu
    rcases List.mem_cons.mp humem with rfl | hurest
    · exfalso
      have hlen : u.id < i.length := hids u (heappop_mem h u rest hp).1
      have hres : futAt (setFut i u.id .resolved) u.id = .resolved :=
        futAt_setFut_self i u.id _ hlen
      have := wakeLoop1_fut_resolved (v - 1) rest (setFut i u.id .resolved)
        (a ++ [u]) u.id hres
      rw [← huk] at hpend
      rw [this] at hpend
      cases hpend
    · refine ih (fun x hx => ?_) ⟨u, hurest, huk⟩ hpend
      rw [setFut_length]
      exact hids x ((heappop_mem h w rest hp).2 x hx)
  | case4 v h i a hv =>
    rw [wakeLoop1_eq_zero v h i a hv]
    exact hw

/-- Grant order: grants of the first loop are mutually ordered (no later
grant is below an earlier one) and no waiter left in the heap is below any
grant. -/
theorem wakeLoop1_min (v : Nat) (h : List PriorityWaiter)
    (i : List WaiterInfo) (a : List PriorityWaiter)
    (hinv : heapInv h)
    (hpair : List.Pairwise (fun x y => pwLt y x = false) a)
    (hmin : ∀ x ∈ a, ∀ u ∈ h, pwLt u x = false) :
    List.Pairwise (fun x y => pwLt y x = false) (wakeLoop1 v h i a).granted
      ∧ ∀ x ∈ (wakeLoop1 v h i a).granted, ∀ u ∈ (wakeLoop1 v h i a).heap,
          pwLt u x = false := by
  induction v, h, i, a using wakeLoop1.induct with
  | case1 v h i a hv hp =>
    rw [wakeLoop1_eq_none v h i a hv hp]
    exact ⟨hpair, hmin⟩
  | case2 v h i a hv w rest hp hd ih =>
    rw [wakeLoop1_eq_done v h i a w rest hv hp hd]
    exact ih (heappop_inv h w rest hinv hp) hpair
      (fun x hx u hu => hmin x hx u ((heappop_mem h w rest hp).2 u hu))
  | case3 v h i a hv w rest hp hd ih =>
    rw [wakeLoop1_eq_live v h i a w rest hv hp (by simpa using hd)]
    have hwh : w ∈ h := (heappop_mem h w rest hp).1
    have hwmin := heappop_min h w rest hinv hp
    apply ih (heappop_inv h w rest hinv hp)
    · rw [List.pairwise_append]
      refine ⟨hpair, List.pairwise_singleton _ _, ?_⟩
      intro x hx y hy
      rw [List.mem_singleton.mp hy]
      exact hmin x hx w hwh
    · intro x hx u hu
      have humem : u ∈ h := (heappop_mem h w rest hp).2 u hu
      rcases List.mem_append.mp hx with hx | hx
      · exact hmin x hx u humem
      · rw [List.mem_singleton.mp hx]
        exact hwmin u humem
  | case4 v h i a hv =>
    rw [wakeLoop1_eq_zero v h i a hv]
    exact ⟨hpair, hmin⟩

/-! ### Behaviour of the second `_maybe_wake` loop -/

theorem wakeLoop2_mem (h : List PriorityWaiter) (i : List WaiterInfo) :
    ∀ u ∈ wakeLoop2 h i, u ∈ h := by
  induction h, i using wakeLoop2.induct with
  | case1 h i hp =>
    rw [wakeLoop2_eq_none h i hp]
    intro u hu
    exact hu
  | case2 h i w rest hp hd ih =>
    rw [wakeLoop2_eq_done h i w rest hp hd]
    intro u hu
    exact (heappop_mem h w rest hp).2 u (ih u hu)
  | case3 h i w rest hp hd =>
    rw [wakeLoop2_eq_live h i w rest hp (by simpa using hd)]
    intro u hu
    have := (heappush_perm rest w).mem_iff.mp hu
    rcases List.mem_cons.mp this with rfl | hurest
    · exact (heappop_mem h u rest hp).1
    · exact (heappop_mem h w rest hp).2 u hurest

theorem wakeLoop2_hinv (h : List PriorityWaiter) (i : List WaiterInfo)
    (hinv : heapInv h) : heapInv (wakeLoop2 h i) := by
  induction h, i using wakeLoop2.induct with
  | case1 h i hp => rw [wakeLoop2_eq_none h i hp]; exact hinv
  | case2 h i w rest hp hd ih =>
    rw [wakeLoop2_eq_done h i w rest hp hd]
    exact ih (heappop_inv h w rest hinv hp)
  | case3 h i w rest hp hd =>
    rw [wakeLoop2_eq_live h i w rest hp (by simpa using hd)]
    exact heappush_inv rest w (heappop_inv h w rest hinv hp)

theorem wakeLoop2_map_nodup {α : Type} (f : PriorityWaiter → α)
    (h : List PriorityWaiter) (i : List WaiterInfo)
    (hn : (h.map f).Nodup) :
    ((wakeLoop2 h i).map f).Nodup := by
  induction h, i using wakeLoop2.induct with
  | case1 h i hp => rw [wakeLoop2_eq_none h i hp]; exact hn
  | case2 h i w rest hp hd ih =>
    rw [wakeLoop2_eq_done h i w rest hp hd]
    have hperm := (heappop_perm h w rest hp).map f
    exact ih (List.Nodup.of_cons (hn.perm hperm.symm))
  | case3 h i w rest hp hd =>
    rw [wakeLoop2_eq_live h i w rest hp (by simpa using hd)]
    have hperm := (heappop_perm h w rest hp).map f
    have hperm2 := (heappush_perm rest w).map f
    exact (hn.perm hperm.symm).perm hperm2.symm

theorem wakeLoop2_nil (i : List WaiterInfo) : wakeLoop2 [] i = [] := by
  rw [wakeLoop2_eq_none [] i ((heappop_none []).mpr rfl)]

theorem wakeLoop2_pending_in_heap (h : List PriorityWaiter) (i : List WaiterInfo)
    (k : Nat) (hw : ∃ w ∈ h, w.id = k) (hpend : futAt i k = .pending) :
    ∃ w ∈ wakeLoop2 h i, w.id = k := by
  induction h, i using wakeLoop2.induct with
  | case1 h i hp =>
    rw [wakeLoop2_eq_none h i hp]
    exact hw
  | case2 h i w rest hp hd ih =>
    rw [wakeLoop2_eq_done h i w rest hp hd]
    obtain ⟨u, hu, huk⟩ := hw
    have humem : u ∈ w :: rest := (heappop_perm h w rest hp).symm.mem_iff.mp hu
    rcases List.mem_cons.mp humem with rfl | hurest
    · exfalso
      have hiAt : futAt i u.id ≠ .pending := by
        simp only [doneOrCancelledB, Bool.or_eq_true] at hd
        rcases hd with hd | hd <;>
          (cases hfut : futAt i u.id <;> rw [hfut] at hd <;>
            simp [futDoneB, futCancelledB] at hd <;> simp)
      rw [huk] at hiAt
      exact hiAt hpend
    · exact ih ⟨u, hurest, huk⟩ hpend
  | case3 h i w rest hp hd =>
    rw [wakeLoop2_eq_live h i w rest hp (by simpa using hd)]
    obtain ⟨u, hu, huk⟩ := hw
    have humem : u ∈ w :: rest := (heappop_perm h w rest hp).symm.mem_iff.mp hu
    have hpushmem : ∀ x ∈ w :: rest, x ∈ heappush rest w := by
      intro x hx
      exact (heappush_perm rest w).symm.mem_iff.mp hx
    exact ⟨u, hpushmem u humem, huk⟩

theorem futAt_append_new (i : List WaiterInfo) (e : WaiterInfo) :
    futAt (i ++ [e]) i.length = e.fut := by
  simp only [futAt]
  rw [getD_eq_getElem (i ++ [e]) i.length default (by simp)]
  rw [List.getElem_concat_length]
  rfl

theorem futAt_append_old (i : List WaiterInfo) (e : WaiterInfo) (k : Nat)
    (h : k < i.length) : futAt (i ++ [e]) k = futAt i k := by
  simp only [futAt]
  rw [getD_append_left i [e] k default h]

theorem callerAt_append_new (i : List WaiterInfo) (e : WaiterInfo) :
    callerAt (i ++ [e]) i.length = e.caller := by
  simp only [callerAt]
  rw [getD_eq_getElem (i ++ [e]) i.length default (by simp)]
  rw [List.getElem_concat_length]
  rfl

theorem callerAt_append_old (i : List WaiterInfo) (e : WaiterInfo) (k : Nat)
    (h : k < i.length) : callerAt (i ++ [e]) k = callerAt i k := by
  simp only [callerAt]
  rw [getD_append_left i [e] k default h]

/-- Resuming an in-flight waiter takes its permit out of flight. -/
theorem inFlightL_resume (i : List WaiterInfo) (id : Nat) (c : CallerState)
    (hlen : id < i.length) (hres : futAt i id = .resolved)
    (hwait : callerAt i id = .waiting) (hc : c ≠ .waiting) :
    i.countP isInFlight = (setCaller i id c).countP isInFlight + 1 := by
  have hc2 := countP_set isInFlight i id
    (WaiterInfo.mk (i.getD id default).fut c) hlen
  have hold : isInFlight i[id] = true := by
    simp only [isInFlight, Bool.and_eq_true, beq_iff_eq]
    have h1 : i[id].fut = .resolved := by
      rw [← futAt_eq_getElem i id hlen]
      exact hres
    have h2 : i[id].caller = .waiting := by
      rw [← callerAt_eq_getElem i id hlen]
      exact hwait
    rw [h1, h2]
    exact ⟨⟨rfl, rfl⟩, rfl⟩
  have hres' : (i.getD id default).fut = .resolved := hres
  have hnew : isInFlight (WaiterInfo.mk (i.getD id default).fut c) = false := by
    simp only [isInFlight]
    rw [hres']
    simp [futDoneB, futCancelledB, hc]
  rw [hold, hnew] at hc2
  have h0 : (if (false = true) then 1 else 0) = 0 := rfl
  have h1 : (if (true = true) then 1 else 0) = 1 := rfl
  rw [h0, h1] at hc2
  simp only [setCaller]
  omega

/-- Cancelling a pending future does not change the in-flight count. -/
theorem inFlightL_futCancel (i : List WaiterInfo) (id : Nat)
    (hlen : id < i.length) (hpend : futAt i id = .pending) :
    (setFut i id .fcancelled).countP isInFlight = i.countP isInFlight := by
  have hc2 := countP_set isInFlight i id
    (WaiterInfo.mk .fcancelled (i.getD id default).caller) hlen
  have hold : isInFlight i[id] = false := by
    apply isInFlight_pending
    rw [← futAt_eq_getElem i id hlen]
    exact hpend
  have hnew : isInFlight (WaiterInfo.mk .fcancelled (i.getD id default).caller) = false := by
    simp [isInFlight, futDoneB, futCancelledB]
  rw [hold, hnew] at hc2
  have h0 : (if (false = true) then 1 else 0) = 0 := rfl
  rw [h0] at hc2
  simp only [setFut]
  omega

/-! ### The reachable-state invariant -/

/-- The inductive invariant of the semaphore state machine.

* `val_heap`: with permits free the wait heap is empty — a blocked waiter
  exists only while `_value == 0`;
* `hinv`: the wait heap satisfies the binary-heap property;
* `ids_lt`, `nodup`: every heap entry points into the future table, and no
  future is shared by two heap entries;
* `no_res`: a resolved (granted) waiter is never in the heap — grants pop
  it and never re-push it;
* `pend_wait`: a pending future has its acquirer still suspended;
* `pend_heap`: every waiter whose future is pending is physically in the
  heap (lazy invalidation removes only done or cancelled waiters);
* `acc`: permit conservation — free permits plus held permits plus grants
  in flight equal the initial permit count;
* `ts_le`: heap timestamps never exceed the last clock reading. -/
structure Inv (N : Nat) (s : SemState) : Prop where
  val_heap : 0 < s.value → s.heap = []
  hinv : heapInv s.heap
  ids_lt : ∀ w ∈ s.heap, w.id < s.infos.length
  nodup : (s.heap.map PriorityWaiter.id).Nodup
  no_res : ∀ w ∈ s.heap, futAt s.infos w.id ≠ .resolved
  pend_wait : ∀ k, k < s.infos.length → futAt s.infos k = .pending →
      callerAt s.infos k = .waiting
  pend_heap : ∀ k, k < s.infos.length → futAt s.infos k = .pending →
      ∃ w ∈ s.heap, w.id = k
  acc : s.value + s.holders + inFlight s = N
  ts_le : ∀ w ∈ s.heap, w.ts ≤ s.lastTs

/-- `_maybe_wake` re-establishes the invariant from any intermediate state
satisfying the structural conditions (the caller has already adjusted
`value`, `holders` and `infos`). -/
theorem maybeWake_inv (N : Nat) (t : SemState)
    (h2 : heapInv t.heap)
    (h3 : ∀ w ∈ t.heap, w.id < t.infos.length)
    (h4 : (t.heap.map PriorityWaiter.id).Nodup)
    (h5 : ∀ w ∈ t.heap, futAt t.infos w.id ≠ .resolved)
    (h6 : ∀ k, k < t.infos.length → futAt t.infos k = .pending →
        callerAt t.infos k = .waiting)
    (h7 : ∀ k, k < t.infos.length → futAt t.infos k = .pending →
        ∃ w ∈ t.heap, w.id = k)
    (h8 : t.value + t.holders + inFlight t = N)
    (h9 : ∀ w ∈ t.heap, w.ts ≤ t.lastTs) :
    Inv N (maybeWake t).1 := by
  have hlen := wakeLoop1_infos_length t.value t.heap t.infos []
  have hpend_pull : ∀ k,
      futAt (wakeLoop1 t.value t.heap t.infos []).infos k = .pending →
      futAt t.infos k = .pending := by
    intro k hk
    rcases wakeLoop1_fut_trans t.value t.heap t.infos [] k with ht | ht
    · rw [ht] at hk
      exact hk
    · exact ht.1
  constructor
  · -- val_heap
    intro hv
    simp only [maybeWake] at hv ⊢
    rw [wakeLoop1_empty t.value t.heap t.infos [] hv, wakeLoop2_nil]
  · -- heap invariant
    simp only [maybeWake]
    exact wakeLoop2_hinv _ _ (wakeLoop1_hinv t.value t.heap t.infos [] h2)
  · -- ids_lt
    simp only [maybeWake]
    intro w hw
    rw [hlen]
    exact h3 w (wakeLoop1_mem t.value t.heap t.infos [] w (wakeLoop2_mem _ _ w hw))
  · -- nodup
    simp only [maybeWake]
    exact wakeLoop2_map_nodup _ _ _
      (wakeLoop1_map_nodup PriorityWaiter.id t.value t.heap t.infos [] h4)
  · -- no_res
    simp only [maybeWake]
    intro w hw
    exact wakeLoop1_no_resolved t.value t.heap t.infos [] h5 h4 w
      (wakeLoop2_mem _ _ w hw)
  · -- pend_wait
    simp only [maybeWake]
    intro k hk hp
    rw [wakeLoop1_callers]
    rw [hlen] at hk
    exact h6 k hk (hpend_pull k hp)
  · -- pend_heap
    simp only [maybeWake]
    intro k hk hp
    rw [hlen] at hk
    have hbase := h7 k hk (hpend_pull k hp)
    have hr := wakeLoop1_pending_in_heap t.value t.heap t.infos [] k h3 hbase hp
    exact wakeLoop2_pending_in_heap _ _ k hr hp
  · -- accounting
    simp only [maybeWake, inFlight]
    have := wakeLoop1_acc t.value t.heap t.infos [] h3 h6
    simp only [inFlight] at h8
    omega
  · -- timestamps
    simp only [maybeWake]
    intro w hw
    exact h9 w (wakeLoop1_mem t.value t.heap t.infos [] w (wakeLoop2_mem _ _ w hw))

/-- Every transition preserves the invariant. -/
theorem step_inv (strict : Bool) (N : Nat) (s s' : SemState)
    (g : List PriorityWaiter) (hinv : Inv N s) (hstep : Step strict s s' g) :
    Inv N s' := by
  cases hstep with
  | acquireFast hl =>
    have hvpos : s.value ≠ 0 := by
      simp only [lockedB, Bool.or_eq_false_iff] at hl
      simpa using hl.1
    constructor
    · intro hv
      exact hinv.val_heap (by simp only [fastAcquire] at hv ⊢; omega)
    · exact hinv.hinv
    · exact hinv.ids_lt
    · exact hinv.nodup
    · exact hinv.no_res
    · exact hinv.pend_wait
    · exact hinv.pend_heap
    · have := hinv.acc
      simp only [fastAcquire, inFlight] at this ⊢
      omega
    · exact hinv.ts_le
  | acquirePush p t hl hts =>
    have hmono : s.lastTs ≤ t := by
      cases strict <;> simp at hts <;> omega
    have hval0 : s.value = 0 := by
      by_contra hne
      have hempty := hinv.val_heap (by omega)
      simp only [lockedB, hempty, List.any_nil, Bool.or_false] at hl
      simp at hl
      omega
    have hmemheap : ∀ u ∈ (pushWaiter s p t).heap,
        u = ⟨p, t, s.infos.length⟩ ∨ u ∈ s.heap := by
      intro u hu
      simp only [pushWaiter] at hu
      have := (heappush_perm s.heap ⟨p, t, s.infos.length⟩).mem_iff.mp hu
      exact List.mem_cons.mp this
    constructor
    · intro hv
      simp only [pushWaiter] at hv
      omega
    · simp only [pushWaiter]
      exact heappush_inv s.heap _ hinv.hinv
    · intro w hw
      rcases hmemheap w hw with rfl | hmem
      · simp [pushWaiter]
      · simp only [pushWaiter, List.length_append, List.length_singleton]
        have := hinv.ids_lt w hmem
        omega
    · simp only [pushWaiter]
      have hperm := (heappush_perm s.heap ⟨p, t, s.infos.length⟩).map PriorityWaiter.id
      apply List.Nodup.perm _ hperm.symm
      rw [List.map_cons]
      apply List.nodup_cons.mpr
      refine ⟨?_, hinv.nodup⟩
      intro hcon
      obtain ⟨u, hu, huid⟩ := List.mem_map.mp hcon
      have := hinv.ids_lt u hu
      simp only [PriorityWaiter.id] at huid
      omega
    · intro w hw
      rcases hmemheap w hw with rfl | hmem
      · simp only [pushWaiter]
        rw [futAt_append_new]
        intro hcon
        cases hcon
      · simp only [pushWaiter]
        rw [futAt_append_old s.infos _ w.id (hinv.ids_lt w hmem)]
        exact hinv.no_res w hmem
    · intro k hk hp
      simp only [pushWaiter, List.length_append, List.length_singleton] at hk
      by_cases hkl : k < s.infos.length
      · simp only [pushWaiter] at hp ⊢
        rw [futAt_append_old s.infos _ k hkl] at hp
        rw [callerAt_append_old s.infos _ k hkl]
        exact hinv.pend_wait k hkl hp
      · have hkeq : k = s.infos.length := by omega
        subst hkeq
        simp only [pushWaiter]
        rw [callerAt_append_new]
    · intro k hk hp
      simp only [pushWaiter, List.length_append, List.length_singleton] at hk
      by_cases hkl : k < s.infos.length
      · simp only [pushWaiter] at hp ⊢
        rw [futAt_append_old s.infos _ k hkl] at hp
        obtain ⟨w, hw, hwk⟩ := hinv.pend_heap k hkl hp
        refine ⟨w, ?_, hwk⟩
        exact (heappush_perm s.heap _).symm.mem_iff.mp (List.mem_cons_of_mem _ hw)
      · have hkeq : k = s.infos.length := by omega
        subst hkeq
        refine ⟨⟨p, t, s.infos.length⟩, ?_, rfl⟩
        simp only [pushWaiter]
        exact (heappush_perm s.heap _).symm.mem_iff.mp (List.mem_cons_self _ _)
    · have := hinv.acc
      simp only [pushWaiter, inFlight, List.countP_append] at this ⊢
      have hnew : List.countP isInFlight [(⟨.pending, .waiting⟩ : WaiterInfo)] = 0 := by
        simp [List.countP, List.countP.go, isInFlight, futDoneB]
      omega
    · intro w hw
      rcases hmemheap w hw with rfl | hmem
      · simp [pushWaiter]
      · simp only [pushWaiter]
        have := hinv.ts_le w hmem
        omega
  | release hh =>
    apply maybeWake_inv N
    · exact hinv.hinv
    · exact hinv.ids_lt
    · exact hinv.nodup
    · exact hinv.no_res
    · exact hinv.pend_wait
    · exact hinv.pend_heap
    · have := hinv.acc
      simp only [inFlight] at this ⊢
      omega
    · exact hinv.ts_le
  | futCancel id hid hpend =>
    constructor
    · intro hv
      exact hinv.val_heap (by simpa [futCancelRun] using hv)
    · exact hinv.hinv
    · intro w hw
      simp only [futCancelRun, setFut_length]
      exact hinv.ids_lt w hw
    · exact hinv.nodup
    · intro w hw
      simp only [futCancelRun]
      by_cases hwid : w.id = id
      · rw [hwid, futAt_setFut_self s.infos id _ hid]
        intro hcon
        cases hcon
      · rw [futAt_setFut_ne s.infos id w.id _ hwid]
        exact hinv.no_res w hw
    · intro k hk hp
      simp only [futCancelRun, setFut_length] at hk
      simp only [futCancelRun] at hp ⊢
      by_cases hkid : k = id
      · rw [hkid, futAt_setFut_self s.infos id _ hid] at hp
        cases hp
      · rw [futAt_setFut_ne s.infos id k _ hkid] at hp
        rw [callerAt_setFut]
        exact hinv.pend_wait k hk hp
    · intro k hk hp
      simp only [futCancelRun, setFut_length] at hk
      simp only [futCancelRun] at hp ⊢
      by_cases hkid : k = id
      · rw [hkid, futAt_setFut_self s.infos id _ hid] at hp
        cases hp
      · rw [futAt_setFut_ne s.infos id k _ hkid] at hp
        exact hinv.pend_heap k hk hp
    · have := hinv.acc
      simp only [futCancelRun, inFlight]
      rw [inFlightL_futCancel s.infos id hid hpend]
      exact this
    · exact hinv.ts_le
  | resumeOk id hid hres hwait =>
    apply maybeWake_inv N
    · exact hinv.hinv
    · intro w hw
      simp only [setCaller_length]
      exact hinv.ids_lt w hw
    · exact hinv.nodup
    · intro w hw
      rw [futAt_setCaller]
      exact hinv.no_res w hw
    · intro k hk hp
      simp only [setCaller_length] at hk
      rw [futAt_setCaller] at hp
      by_cases hkid : k = id
      · rw [hkid] at hp
        rw [hres] at hp
        cases hp
      · rw [callerAt_setCaller_ne s.infos id k _ hkid]
        exact hinv.pend_wait k hk hp
    · intro k hk hp
      simp only [setCaller_length] at hk
      rw [futAt_setCaller] at hp
      exact hinv.pend_heap k hk hp
    · have hacc := hinv.acc
      have hdec := inFlightL_resume s.infos id .resumedOk hid hres hwait
        (by intro hcon; cases hcon)
      simp only [inFlight] at hacc ⊢
      omega
    · exact hinv.ts_le
  | resumeCancel id hid hnp hwait =>
    apply maybeWake_inv N
    · exact hinv.hinv
    · intro w hw
      simp only [setCaller_length]
      exact hinv.ids_lt w hw
    · exact hinv.nodup
    · intro w hw
      rw [futAt_setCaller]
      exact hinv.no_res w hw
    · intro k hk hp
      simp only [setCaller_length] at hk
      rw [futAt_setCaller] at hp
      by_cases hkid : k = id
      · rw [hkid] at hp
        exact absurd hp hnp
      · rw [callerAt_setCaller_ne s.infos id k _ hkid]
        exact hinv.pend_wait k hk hp
    · intro k hk hp
      simp only [setCaller_length] at hk
      rw [futAt_setCaller] at hp
      exact hinv.pend_heap k hk hp
    · have hacc := hinv.acc
      cases hfut : futAt s.infos id with
      | pending => exact absurd hfut hnp
      | resolved =>
        have hdec := inFlightL_resume s.infos id .resumedCancelled hid hfut hwait
          (by intro hcon; cases hcon)
        have hch : cancelHandler (futAt s.infos id) s.value = s.value + 1 := by
          rw [hfut]
          rfl
        have hch2 : cancelHandler FutState.resolved s.value = s.value + 1 := rfl
        simp only [inFlight] at hacc ⊢
        omega
      | fcancelled =>
        have hsame : (setCaller s.infos id .resumedCancelled).countP isInFlight
            = s.infos.countP isInFlight := by
          have hc2 := countP_set isInFlight s.infos id
            (WaiterInfo.mk (s.infos.getD id default).fut .resumedCancelled) hid
          have hfut' : (s.infos.getD id default).fut = .fcancelled := hfut
          have hold : isInFlight s.infos[id] = false := by
            have h1 : s.infos[id].fut = .fcancelled := by
              rw [← futAt_eq_getElem s.infos id hid]
              exact hfut
            simp [isInFlight, h1, futCancelledB]
          have hnew : isInFlight
              (WaiterInfo.mk (s.infos.getD id default).fut .resumedCancelled) = false := by
            simp [isInFlight, hfut', futCancelledB]
          rw [hold, hnew] at hc2
          have h0 : (if (false = true) then 1 else 0) = 0 := rfl
          rw [h0] at hc2
          simp only [setCaller]
          omega
        have hch : cancelHandler (futAt s.infos id) s.value = s.value := by
          rw [hfut]
          rfl
        have hch2 : cancelHandler FutState.fcancelled s.value = s.value := rfl
        simp only [inFlight] at hacc ⊢
        omega
    · exact hinv.ts_le

/-- Every reachable state satisfies the invariant. -/
theorem reachable_inv (strict : Bool) (N : Nat) (s : SemState)
    (h : Reachable strict N s) : Inv N s := by
  induction h with
  | init =>
    constructor
    · intro hv
      rfl
    · exact heapInv_nil
    · intro w hw
      cases hw
    · exact List.nodup_nil
    · intro w hw
      cases hw
    · intro k hk
      simp [initState] at hk
    · intro k hk
      simp [initState] at hk
    · simp [initState, inFlight]
    · intro w hw
      cases hw
  | step s s' g hreach hstep ih =>
    exact step_inv _ N s s' g ih hstep

/-- Under a strictly increasing clock, the timestamps of the waiters in the
heap are pairwise distinct. -/
theorem reachable_strict_ts_nodup (N : Nat) (s : SemState)
    (h : Reachable true N s) : (s.heap.map PriorityWaiter.ts).Nodup := by
  induction h with
  | init => exact List.nodup_nil
  | step s s' g hreach hstep ih =>
    have hinv := reachable_inv true N s hreach
    cases hstep with
    | acquireFast hl => exact ih
    | acquirePush p t hl hts =>
      simp only [if_true] at hts
      simp only [pushWaiter]
      apply List.Nodup.perm _
        ((heappush_perm s.heap ⟨p, t, s.infos.length⟩).map PriorityWaiter.ts).symm
      rw [List.map_cons]
      apply List.nodup_cons.mpr
      refine ⟨?_, ih⟩
      intro hcon
      obtain ⟨u, hu, hut⟩ := List.mem_map.mp hcon
      have h1 := hinv.ts_le u hu
      simp only [PriorityWaiter.ts] at hut
      omega
    | release hh =>
      simp only [releaseRun, maybeWake]
      exact wakeLoop2_map_nodup _ _ _
        (wakeLoop1_map_nodup PriorityWaiter.ts _ _ _ _ ih)
    | futCancel id hid hpend => exact ih
    | resumeOk id hid hres hwait =>
      simp only [resumeOkRun, maybeWake]
      exact wakeLoop2_map_nodup _ _ _
        (wakeLoop1_map_nodup PriorityWaiter.ts _ _ _ _ ih)
    | resumeCancel id hid hnp hwait =>
      simp only [resumeCancelRun, maybeWake]
      exact wakeLoop2_map_nodup _ _ _
        (wakeLoop1_map_nodup PriorityWaiter.ts _ _ _ _ ih)

/-- Every waiter granted by the first loop had a pending future at the
moment it was popped (it was live). -/
theorem wakeLoop1_granted_pending (v : Nat) (h : List PriorityWaiter)
    (i : List WaiterInfo) (acc : List PriorityWaiter)
    (hids : ∀ w ∈ h, w.id < i.length) :
    ∀ w ∈ (wakeLoop1 v h i acc).granted, w ∉ acc → futAt i w.id = .pending := by
  induction v, h, i, acc using wakeLoop1.induct with
  | case1 v h i a hv hp =>
    rw [wakeLoop1_eq_none v h i a hv hp]
    intro w hw hnacc
    exact absurd hw hnacc
  | case2 v h i a hv w rest hp hd ih =>
    rw [wakeLoop1_eq_done v h i a w rest hv hp hd]
    exact ih (fun u hu => hids u ((heappop_mem h w rest hp).2 u hu))
  | case3 v h i a hv w rest hp hd ih =>
    rw [wakeLoop1_eq_live v h i a w rest hv hp (by simpa using hd)]
    have hd' : doneOrCancelledB i w = false := by simpa using hd
    have hpend : futAt i w.id = .pending := by
      simp only [doneOrCancelledB, Bool.or_eq_false_iff] at hd'
      cases hfut : futAt i w.id <;> rw [hfut] at hd' <;>
        simp [futDoneB, futCancelledB] at hd' ⊢
    have hwlen : w.id < i.length := hids w (heappop_mem h w rest hp).1
    intro u hu hnacc
    by_cases huw : u = w
    · rw [huw]
      exact hpend
    · have hnacc' : u ∉ a ++ [w] := by
        intro hmem
        rcases List.mem_append.mp hmem with hmem | hmem
        · exact hnacc hmem
        · exact huw (List.mem_singleton.mp hmem)
      have hrec := ih (fun x hx => by
          rw [setFut_length]
          exact hids x ((heappop_mem h w rest hp).2 x hx)) u hu hnacc'
      by_cases hidw : u.id = w.id
      · rw [hidw, futAt_setFut_self i w.id _ hwlen] at hrec
        cases hrec
      · rwa [futAt_setFut_ne i w.id u.id _ hidw] at hrec
  | case4 v h i a hv =>
    rw [wakeLoop1_eq_zero v h i a hv]
    intro w hw hnacc
    exact absurd hw hnacc

/-- Every waiter granted by the first loop has a resolved future afterwards
(its `set_result(None)` has happened). -/
theorem wakeLoop1_granted_resolved (v : Nat) (h : List PriorityWaiter)
    (i : List WaiterInfo) (acc : List PriorityWaiter)
    (hids : ∀ w ∈ h, w.id < i.length) :
    ∀ w ∈ (wakeLoop1 v h i acc).granted, w ∉ acc →
      futAt (wakeLoop1 v h i acc).infos w.id = .resolved := by
  induction v, h, i, acc using wakeLoop1.induct with
  | case1 v h i a hv hp =>
    rw [wakeLoop1_eq_none v h i a hv hp]
    intro w hw hnacc
    exact absurd hw hnacc
  | case2 v h i a hv w rest hp hd ih =>
    rw [wakeLoop1_eq_done v h i a w rest hv hp hd]
    exact ih (fun u hu => hids u ((heappop_mem h w rest hp).2 u hu))
  | case3 v h i a hv w rest hp hd ih =>
    rw [wakeLoop1_eq_live v h i a w rest hv hp (by simpa using hd)]
    have hwlen : w.id < i.length := hids w (heappop_mem h w rest hp).1
    intro u hu hnacc
    by_cases huw : u = w
    · rw [huw]
      exact wakeLoop1_fut_resolved (v - 1) rest (setFut i w.id .resolved) (a ++ [w])
        w.id (futAt_setFut_self i w.id _ hwlen)
    · have hnacc' : u ∉ a ++ [w] := by
        intro hmem
        rcases List.mem_append.mp hmem with hmem | hmem
        · exact hnacc hmem
        · exact huw (List.mem_singleton.mp hmem)
      exact ih (fun x hx => by
          rw [setFut_length]
          exact hids x ((heappop_mem h w rest hp).2 x hx)) u hu hnacc'
  | case4 v h i a hv =>
    rw [wakeLoop1_eq_zero v h i a hv]
    intro w hw hnacc
    exact absurd hw hnacc

/-- Grant-order minimality at the `_maybe_wake` level: the grants of one
call are mutually ordered and no waiter remaining in the heap afterwards is
strictly below any of them. -/
theorem maybeWake_min (t : SemState) (h2 : heapInv t.heap) :
    List.Pairwise (fun x y => pwLt y x = false) (maybeWake t).2
      ∧ ∀ x ∈ (maybeWake t).2, ∀ u ∈ (maybeWake t).1.heap, pwLt u x = false := by
  have hbase := wakeLoop1_min t.value t.heap t.infos [] h2 List.Pairwise.nil
    (fun x hx => absurd hx (List.not_mem_nil x))
  constructor
  · simpa only [maybeWake] using hbase.1
  · simp only [maybeWake]
    intro x hx u hu
    exact hbase.2 x hx u (wakeLoop2_mem _ _ u hu)

/-! ### The task cache (`task_cache.py`)

`taskcache` (lines 41-106) memoizes an asynchronous factory in a plain
`dict`; `lrutaskcache` (lines 115-181) uses the `LRU` container.  Cache
keys come from the deterministic external `make_key` collaborator, so the
embedding works at key level (keys and task handles are numbered).  A
returned task never inspects its completion state inside the wrapper: the
cache stores task handles only. -/

/-- The completion state of a cached `asyncio.Task`: the wrapper code never
branches on it. -/
inductive TaskSt where
  | tpending
  | tresolved
  | tfailed
deriving DecidableEq, Repr

/-- `dict.get(key)`, on a key-unique association list. -/
def dictGet (c : List (Nat × Nat)) (k : Nat) : Option Nat :=
  match c with
  | [] => none
  | (k', v) :: rest => if k' = k then some v else dictGet rest k

/-- `dict[key] = value`. -/
def dictInsert (c : List (Nat × Nat)) (k v : Nat) : List (Nat × Nat) :=
  match c with
  | [] => [(k, v)]
  | (k', v') :: rest =>
    if k' = k then (k', v) :: rest else (k', v') :: dictInsert rest k v

/-- `dict.pop(key, default)`: removes `key` if present, never raises. -/
def dictPop (c : List (Nat × Nat)) (k : Nat) : List (Nat × Nat) :=
  match c with
  | [] => []
  | (k', v') :: rest => if k' = k then rest else (k', v') :: dictPop rest k

structure CallResult where
  task : Nat
  cache : List (Nat × Nat)
  ranFactory : Bool
  scheduledRemoval : Bool
deriving DecidableEq, Repr

/-- Embeds the body of `taskcache.wrapper.wrapped` (lines 74-92): compute
`key`; if `internal_cache.get(key)` hits, return the cached task; otherwise
run the factory (`coro(*args, **kwargs)`, producing the fresh task
`newTask`), store it, and iff a TTL was configured register a done callback
that will schedule `internal_cache.pop(key, task)` `ttl` seconds after the
task completes. -/
def wrappedCall (ttl : Option Int) (cache : List (Nat × Nat)) (key newTask : Nat) :
    CallResult :=
  match dictGet cache key with
  | some cached => ⟨cached, cache, false, false⟩
  | none => ⟨newTask, dictInsert cache key newTask, true, ttl.isSome⟩

/-- A sequence of calls with the same key; `tasks` supplies the fresh task
a factory run would create at each call.  Returns the handles handed out,
the final cache, and how many times the factory ran. -/
def callSeq (ttl : Option Int) (cache : List (Nat × Nat)) (key : Nat)
    (tasks : List Nat) : List Nat × List (Nat × Nat) × Nat :=
  match tasks with
  | [] => ([], cache, 0)
  | t :: ts =>
    let r := wrappedCall ttl cache key t
    let rest := callSeq ttl r.cache key ts
    (r.task :: rest.1, rest.2.1, (if r.ranFactory then 1 else 0) + rest.2.2)

/-- The deferred removal registered by `taskcache` (lines 82-91): when the
task completes, `loop.call_later(ttl, internal_cache.pop, key, task)` is
issued, so at fire time `internal_cache.pop(key, task)` runs. -/
def ttlFirePlain (cache : List (Nat × Nat)) (key : Nat) : List (Nat × Nat) :=
  dictPop cache key

/-- `loop.call_later(ttl, cb)` issued by a done callback running at the
task's completion time fires at `completion + ttl` — the call time of the
wrapped function plays no role. -/
def ttlFireTime (completion ttl : Int) : Int := completion + ttl

/-- Modelled from the spec: the `LRU` container imported by `task_cache.py`
(`from .lru import LRU`); the file `lru.py` is not in the repository
snapshot.  Spec section 4.6: fixed capacity; `get` returns the value and
marks the key most-recently-used; `set` updates or inserts and, if the size
now exceeds the capacity, evicts strictly the least-recently-used key;
`remove` deletes if present, no-op otherwise.  Entries are held in recency
order, most recent first. -/
structure LRU where
  maxsize : Nat
  entries : List (Nat × Nat)
deriving DecidableEq, Repr

def LRU.get (l : LRU) (k : Nat) : Option Nat × LRU :=
  match dictGet l.entries k with
  | none => (none, l)
  | some v => (some v, ⟨l.maxsize, (k, v) :: dictPop l.entries k⟩)

def LRU.set (l : LRU) (k v : Nat) : LRU :=
  let entries' := (k, v) :: dictPop l.entries k
  if l.maxsize < entries'.length then ⟨l.maxsize, entries'.dropLast⟩
  else ⟨l.maxsize, entries'⟩

def LRU.remove (l : LRU) (k : Nat) : LRU := ⟨l.maxsize, dictPop l.entries k⟩

structure LruCallResult where
  task : Nat
  cache : LRU
  ranFactory : Bool
  scheduledRemoval : Bool
deriving DecidableEq, Repr

/-- Embeds the body of `lrutaskcache.wrapper.wrapped` (lines 155-167), like
`wrappedCall` but against the `LRU` container; with a TTL configured the
done callback is `partial(_lru_evict, ttl, internal_cache, key)`. -/
def lruWrappedCall (ttl : Option Int) (cache : LRU) (key newTask : Nat) :
    LruCallResult :=
  match LRU.get cache key with
  | (some cached, c') => ⟨cached, c', false, false⟩
  | (none, _) => ⟨newTask, LRU.set cache key newTask, true, ttl.isSome⟩

/-- The deferred removal registered by `lrutaskcache` (`_lru_evict`, lines
109-112): when the task completes, `loop.call_later(ttl, cache.remove, key)`
is issued, so at fire time `cache.remove(key)` runs. -/
def ttlFireLru (cache : LRU) (key : Nat) : LRU := LRU.remove cache key

/-- Modelled from the spec: `remove_entry(wrapped_fn, args, kwargs)` belongs
to the memoization surface (spec sections 4.4 and 6) but its definition is
not in the repository snapshot (only the two decorators are).  Spec:
"removes exactly the entry for that computed key if present; absence is NOT
an error (tolerates benign removal races)".  The key is computed by the Key
Builder; the removal pops it from the wrapped function's private cache with
absence tolerated, so no error path exists. -/
def removeEntry (cache : List (Nat × Nat)) (key : Nat) :
    Except Unit (List (Nat × Nat)) :=
  Except.ok (dictPop cache key)

/-- A sequence of calls with arbitrary keys; each list element supplies the
key and the fresh task a factory run would create. -/
def callAny (ttl : Option Int) (cache : List (Nat × Nat)) (calls : List (Nat × Nat)) :
    List (Nat × Nat) :=
  match calls with
  | [] => cache
  | (k, t) :: rest => callAny ttl (wrappedCall ttl cache k t).cache rest

theorem dictGet_insert_self (c : List (Nat × Nat)) (k v : Nat) :
    dictGet (dictInsert c k v) k = some v := by
  induction c with
  | nil => simp [dictInsert, dictGet]
  | cons p rest ih =>
    obtain ⟨k', v'⟩ := p
    by_cases hk : k' = k <;> simp [dictInsert, dictGet, hk, ih]

theorem dictGet_insert_ne (c : List (Nat × Nat)) (k v j : Nat) (h : j ≠ k) :
    dictGet (dictInsert c k v) j = dictGet c j := by
  induction c with
  | nil => simp [dictInsert, dictGet, Ne.symm h]
  | cons p rest ih =>
    obtain ⟨k', v'⟩ := p
    by_cases hk : k' = k
    · subst hk
      simp [dictInsert, dictGet, Ne.symm h]
    · simp only [dictInsert, if_neg hk]
      by_cases hj : k' = j <;> simp [dictGet, hj, ih]

theorem dictGet_pop_ne (c : List (Nat × Nat)) (k j : Nat) (h : j ≠ k) :
    dictGet (dictPop c k) j = dictGet c j := by
  induction c with
  | nil => simp [dictPop]
  | cons p rest ih =>
    obtain ⟨k', v'⟩ := p
    by_cases hk : k' = k
    · subst hk
      simp only [dictPop, if_pos rfl]
      simp [dictGet, Ne.symm h]
    · simp only [dictPop, if_neg hk]
      by_cases hj : k' = j <;> simp [dictGet, hj, ih]

theorem dictPop_absent (c : List (Nat × Nat)) (k : Nat)
    (h : dictGet c k = none) : dictPop c k = c := by
  induction c with
  | nil => simp [dictPop]
  | cons p rest ih =>
    obtain ⟨k', v'⟩ := p
    by_cases hk : k' = k
    · simp [dictGet, hk] at h
    · simp only [dictGet, hk, if_neg] at h
      simp [dictPop, hk, ih h]

theorem dictGet_not_mem (c : List (Nat × Nat)) (k : Nat)
    (h : k ∉ c.map Prod.fst) : dictGet c k = none := by
  induction c with
  | nil => rfl
  | cons p rest ih =>
    obtain ⟨k', v'⟩ := p
    rw [List.map_cons, List.mem_cons] at h
    push_neg at h
    simp [dictGet, Ne.symm h.1, ih h.2]

theorem dictGet_pop_self (c : List (Nat × Nat)) (k : Nat)
    (hn : (c.map Prod.fst).Nodup) : dictGet (dictPop c k) k = none := by
  induction c with
  | nil => simp [dictPop, dictGet]
  | cons p rest ih =>
    obtain ⟨k', v'⟩ := p
    rw [List.map_cons, List.nodup_cons] at hn
    by_cases hk : k' = k
    · subst hk
      have hpop : dictPop ((k', v') :: rest) k' = rest := by
        simp [dictPop]
      rw [hpop]
      exact dictGet_not_mem rest k' hn.1
    · simp [dictPop, dictGet, hk, ih hn.2]

theorem dictInsert_length_absent (c : List (Nat × Nat)) (k v : Nat)
    (h : dictGet c k = none) : (dictInsert c k v).length = c.length + 1 := by
  induction c with
  | nil => simp [dictInsert]
  | cons p rest ih =>
    obtain ⟨k', v'⟩ := p
    by_cases hk : k' = k
    · simp [dictGet, hk] at h
    · simp only [dictGet, hk, if_neg] at h
      simp [dictInsert, hk, ih h]

/-- A wrapped call never disturbs an existing entry (for any key). -/
theorem wrappedCall_preserves (ttl : Option Int) (cache : List (Nat × Nat))
    (k t k0 t0 : Nat) (h : dictGet cache k0 = some t0) :
    dictGet (wrappedCall ttl cache k t).cache k0 = some t0 := by
  cases hmatch : dictGet cache k with
  | some cached => simp [wrappedCall, hmatch, h]
  | none =>
    simp only [wrappedCall, hmatch]
    by_cases hkk : k0 = k
    · rw [hkk] at h
      rw [h] at hmatch
      cases hmatch
    · rw [dictGet_insert_ne cache k t k0 hkk]
      exact h

/-- No later call with any arguments ever removes or replaces an entry of
the plain task cache. -/
theorem callAny_preserves (ttl : Option Int) (cache : List (Nat × Nat))
    (calls : List (Nat × Nat)) (k0 t0 : Nat) (h : dictGet cache k0 = some t0) :
    dictGet (callAny ttl cache calls) k0 = some t0 := by
  induction calls generalizing cache with
  | nil => exact h
  | cons p rest ih =>
    obtain ⟨k, t⟩ := p
    exact ih _ (wrappedCall_preserves ttl cache k t k0 t0 h)

/-- Distinct-key calls grow the unbounded cache without limit: one entry
per distinct key, never removed. -/
theorem callAny_growth (ttl : Option Int) (cache : List (Nat × Nat))
    (calls : List (Nat × Nat))
    (habs : ∀ p ∈ calls, dictGet cache p.1 = none)
    (hnd : (calls.map Prod.fst).Nodup) :
    (callAny ttl cache calls).length = cache.length + calls.length := by
  induction calls generalizing cache with
  | nil => simp [callAny]
  | cons p rest ih =>
    obtain ⟨k, t⟩ := p
    have hk : dictGet cache k = none := habs (k, t) (List.mem_cons_self _ _)
    rw [List.map_cons, List.nodup_cons] at hnd
    have hstep : callAny ttl cache ((k, t) :: rest)
        = callAny ttl (dictInsert cache k t) rest := by
      simp [callAny, wrappedCall, hk]
    rw [hstep]
    have habs' : ∀ p ∈ rest, dictGet (dictInsert cache k t) p.1 = none := by
      intro q hq
      have hqk : q.1 ≠ k := by
        intro hcon
        apply hnd.1
        exact List.mem_map.mpr ⟨q, hq, hcon⟩
      rw [dictGet_insert_ne cache k t q.1 hqk]
      exact habs q (List.mem_cons_of_mem _ hq)
    rw [ih (dictInsert cache k t) habs' hnd.2,
      dictInsert_length_absent cache k t hk, List.length_cons]
    omega

/-- A present entry is returned unchanged by every call, with no factory
run, for as long as it is present. -/
theorem callSeq_present (ttl : Option Int) (cache : List (Nat × Nat))
    (key t0 : Nat) (tasks : List Nat) (h : dictGet cache key = some t0) :
    callSeq ttl cache key tasks = (List.replicate tasks.length t0, cache, 0) := by
  induction tasks with
  | nil => simp [callSeq]
  | cons t ts ih =>
    simp [callSeq, wrappedCall, h, ih, List.replicate_succ]

/-- Single flight from an absent key: the first call runs the factory, all
calls return the same shared handle, and the factory runs exactly once. -/
theorem callSeq_absent (ttl : Option Int) (cache : List (Nat × Nat))
    (key t : Nat) (ts : List Nat) (h : dictGet cache key = none) :
    callSeq ttl cache key (t :: ts)
      = (t :: List.replicate ts.length t, dictInsert cache key t, 1) := by
  have hrest := callSeq_present ttl (dictInsert cache key t) key t ts
    (dictGet_insert_self cache key t)
  simp [callSeq, wrappedCall, h, hrest]

/-! ### Event-loop binding (`_get_loop`) -/

/-- Embeds `PrioritySemaphore._get_loop` (priority_sem.py lines 121-131):
`loop = asyncio.get_running_loop()`; if the semaphore is unbound, bind it to
`loop`; if the running loop is not the bound loop, raise `RuntimeError`.
Event loops are identified by numbers; the result carries the new binding. -/
def getLoop (bound : Option Nat) (running : Nat) : Except Unit (Option Nat) :=
  let b := bound.getD running
  if running = b then Except.ok (some b)
  else Except.error ()

/-- Which `_get_loop` calls `__acquire` makes (lines 153-169): the fast path
returns `True` before line 163 is reached, so only a suspending acquire
calls `_get_loop`. -/
def acquireLoopEffect (bound : Option Nat) (running : Nat) (isLocked : Bool) :
    Except Unit (Option Nat) :=
  if !isLocked then Except.ok bound
  else getLoop bound running

/-- Which `_get_loop` calls `__release` makes (lines 202-204): none — it
increments `_value` and calls `_maybe_wake`, neither of which consults the
bound loop, so release never checks nor binds. -/
def releaseLoopEffect (bound : Option Nat) (running : Nat) :
    Except Unit (Option Nat) :=
  Except.ok bound

/-! ### A concrete reachable trace with clock ties

`loop.time()` is only guaranteed monotone: two waiter creations may observe
the same clock value (`time.monotonic` has platform-dependent resolution).
The trace below drives a `PrioritySemaphore(1)` through a fast acquire and
four equal-priority acquires that all read the same clock value `0`, then
releases.  Waiter ids record arrival order: id 0 (`csA`) arrived first,
then 1 (`csB`), 2 (`csC`), 3 (`csD`). -/

def csA : PriorityWaiter := ⟨0, 0, 0⟩

def csB : PriorityWaiter := ⟨0, 0, 1⟩

def csC : PriorityWaiter := ⟨0, 0, 2⟩

def csD : PriorityWaiter := ⟨0, 0, 3⟩

def cs0 : SemState := ⟨1, [], [], 0, 0⟩

def cs1 : SemState := ⟨0, [], [], 1, 0⟩

def cs2 : SemState := ⟨0, [csA], [⟨.pending, .waiting⟩], 1, 0⟩

def cs3 : SemState :=
  ⟨0, [csA, csB], [⟨.pending, .waiting⟩, ⟨.pending, .waiting⟩], 1, 0⟩

def cs4 : SemState :=
  ⟨0, [csA, csB, csC],
    [⟨.pending, .waiting⟩, ⟨.pending, .waiting⟩, ⟨.pending, .waiting⟩], 1, 0⟩

def cs5 : SemState :=
  ⟨0, [csA, csB, csC, csD],
    [⟨.pending, .waiting⟩, ⟨.pending, .waiting⟩, ⟨.pending, .waiting⟩,
      ⟨.pending, .waiting⟩], 1, 0⟩

def cs6 : SemState :=
  ⟨0, [csB, csD, csC],
    [⟨.resolved, .waiting⟩, ⟨.pending, .waiting⟩, ⟨.pending, .waiting⟩,
      ⟨.pending, .waiting⟩], 0, 0⟩

def cs7 : SemState :=
  ⟨0, [csD, csC, csB],
    [⟨.resolved, .resumedOk⟩, ⟨.pending, .waiting⟩, ⟨.pending, .waiting⟩,
      ⟨.pending, .waiting⟩], 1, 0⟩

def cs8 : SemState :=
  ⟨0, [csB, csC],
    [⟨.resolved, .resumedOk⟩, ⟨.pending, .waiting⟩, ⟨.pending, .waiting⟩,
      ⟨.resolved, .waiting⟩], 0, 0⟩

theorem cs2_eq : pushWaiter cs1 0 0 = cs2 := by
  simp [cs2, cs1, csA, pushWaiter, heappush, siftdownAux, parentIdx, pwLt]

theorem cs3_eq : pushWaiter cs2 0 0 = cs3 := by
  simp [cs3, cs2, csA, csB, pushWaiter, heappush, siftdownAux, parentIdx, pwLt]

theorem cs4_eq : pushWaiter cs3 0 0 = cs4 := by
  simp [cs4, cs3, csA, csB, csC, pushWaiter, heappush, siftdownAux, parentIdx, pwLt]

theorem cs5_eq : pushWaiter cs4 0 0 = cs5 := by
  simp [cs5, cs4, csA, csB, csC, csD, pushWaiter, heappush, siftdownAux, parentIdx, pwLt]

theorem cs6_eq : releaseRun cs5 = (cs6, [csA]) := by
  simp [cs6, cs5, csA, csB, csC, csD, releaseRun, maybeWake, wakeLoop1, wakeLoop2,
    heappop, heappush, siftdownAux, siftupAux, pickChild, parentIdx, pwLt,
    doneOrCancelledB, futAt, futDoneB, futCancelledB, setFut]

theorem cs7_eq : resumeOkRun cs6 0 = (cs7, []) := by
  simp [cs7, cs6, csA, csB, csC, csD, resumeOkRun, maybeWake, wakeLoop1, wakeLoop2,
    heappop, heappush, siftdownAux, siftupAux, pickChild, parentIdx, pwLt,
    doneOrCancelledB, futAt, futDoneB, futCancelledB, setFut, setCaller]

theorem cs8_eq : releaseRun cs7 = (cs8, [csD]) := by
  simp [cs8, cs7, csA, csB, csC, csD, releaseRun, maybeWake, wakeLoop1, wakeLoop2,
    heappop, heappush, siftdownAux, siftupAux, pickChild, parentIdx, pwLt,
    doneOrCancelledB, futAt, futDoneB, futCancelledB, setFut]

theorem cs1_reachable : Reachable false 1 cs1 := by
  have h0 : Reachable false 1 cs0 := Reachable.init
  exact Reachable.step cs0 cs1 [] h0 (Step.acquireFast cs0 (by decide))

theorem cs3_reachable : Reachable false 1 cs3 := by
  have h2 : Reachable false 1 cs2 := by
    have := Reachable.step cs1 (pushWaiter cs1 0 0) [] cs1_reachable
      (Step.acquirePush cs1 0 0 (by decide) (by decide))
    rwa [cs2_eq] at this
  have := Reachable.step cs2 (pushWaiter cs2 0 0) [] h2
    (Step.acquirePush cs2 0 0 (by decide) (by decide))
  rwa [cs3_eq] at this

theorem cs5_reachable : Reachable false 1 cs5 := by
  have h4 : Reachable false 1 cs4 := by
    have := Reachable.step cs3 (pushWaiter cs3 0 0) [] cs3_reachable
      (Step.acquirePush cs3 0 0 (by decide) (by decide))
    rwa [cs4_eq] at this
  have := Reachable.step cs4 (pushWaiter cs4 0 0) [] h4
    (Step.acquirePush cs4 0 0 (by decide) (by decide))
  rwa [cs5_eq] at this

theorem cs7_reachable : Reachable false 1 cs7 := by
  have h6 : Reachable false 1 cs6 := by
    have := Reachable.step cs5 (releaseRun cs5).1 (releaseRun cs5).2 cs5_reachable
      (Step.release cs5 (by decide))
    rwa [cs6_eq] at this
  have := Reachable.step cs6 (resumeOkRun cs6 0).1 (resumeOkRun cs6 0).2 h6
    (Step.resumeOk cs6 0 (by decide) (by decide) (by decide))
  rwa [cs7_eq] at this

theorem cs8_step : Step false cs7 cs8 [csD] := by
  have h : Step false cs7 (releaseRun cs7).1 (releaseRun cs7).2 :=
    Step.release cs7 (by decide)
  rwa [cs8_eq] at h

/-! ### A concrete strictly-clocked trace -/

def ss2 : SemState := ⟨0, [⟨0, 1, 0⟩], [⟨.pending, .waiting⟩], 1, 1⟩

def ss3 : SemState :=
  ⟨0, [⟨0, 1, 0⟩, ⟨0, 2, 1⟩],
    [⟨.pending, .waiting⟩, ⟨.pending, .waiting⟩], 1, 2⟩

theorem ss2_eq : pushWaiter cs1 0 1 = ss2 := by
  simp [ss2, cs1, pushWaiter, heappush, siftdownAux, parentIdx, pwLt]

theorem ss3_eq : pushWaiter ss2 0 2 = ss3 := by
  simp [ss3, ss2, pushWaiter, heappush, siftdownAux, parentIdx, pwLt]

theorem ss3_reachable : Reachable true 1 ss3 := by
  have h0 : Reachable true 1 cs0 := Reachable.init
  have h1 : Reachable true 1 cs1 :=
    Reachable.step cs0 cs1 [] h0 (Step.acquireFast cs0 (by decide))
  have h2 : Reachable true 1 ss2 := by
    have := Reachable.step cs1 (pushWaiter cs1 0 1) [] h1
      (Step.acquirePush cs1 0 1 (by decide) (by decide))
    rwa [ss2_eq] at this
  have := Reachable.step ss2 (pushWaiter ss2 0 2) [] h2
    (Step.acquirePush ss2 0 2 (by decide) (by decide))
  rwa [ss3_eq] at this

/-! ### Claims -/

/-- **C1** (counterexample).  The claim says waiters of equal priority are
granted strictly in arrival (FIFO) order.  The code tie-breaks only on
`loop.time()`, which is monotone but not strictly increasing, so waiters
may carry equal `(priority, ts)` keys, and `heapq` does not preserve
insertion order among ties.  In the reachable trace `cs0 … cs7` the four
equal-priority waiters `csA, csB, csC, csD` arrived in that order (ids 0-3,
all with clock reading 0); after `csA` is granted and a second `release()`
runs, the semaphore grants `csD` while the earlier arrivals `csB` and `csC`
are still blocked with pending futures — FIFO order among equal priorities
is violated. -/
theorem c1_counterexample :
    Reachable false 1 cs7
    ∧ Step false cs7 cs8 [csD]
    ∧ csB.priority = csD.priority
    ∧ csB.id < csD.id
    ∧ csB ∈ cs7.heap
    ∧ csB ∈ cs8.heap
    ∧ futAt cs8.infos csB.id = .pending
    ∧ csC ∈ cs8.heap
    ∧ futAt cs8.infos csC.id = .pending := by
  refine ⟨cs7_reachable, cs8_step, by decide, by decide, by decide, by decide,
    by decide, by decide, by decide⟩

/-- **C1** (amended).  In every reachable state, every transition grants
waiters in non-decreasing `(priority, ts)` order: the grants of one step
are mutually ordered, no waiter left blocked in the heap is strictly below
any granted waiter, and every waiter whose future is still pending is in
the heap.  Hence grants always pick a minimal live waiter — priority
ascending, and FIFO among equal priorities whenever the clock readings of
their creations differ (ties in `loop.time()` are the only exception, as
`c1_counterexample` shows). -/
theorem c1_grant_order (strict : Bool) (N : Nat) (s s' : SemState)
    (g : List PriorityWaiter) (hr : Reachable strict N s)
    (hstep : Step strict s s' g) :
    List.Pairwise (fun x y => pwLt y x = false) g
    ∧ (∀ x ∈ g, ∀ u ∈ s'.heap, pwLt u x = false)
    ∧ (∀ k, k < s'.infos.length → futAt s'.infos k = .pending →
        ∃ w ∈ s'.heap, w.id = k) := by
  have hinv := reachable_inv strict N s hr
  have hinv' := step_inv strict N s s' g hinv hstep
  have hgr : List.Pairwise (fun x y => pwLt y x = false) g
      ∧ ∀ x ∈ g, ∀ u ∈ s'.heap, pwLt u x = false := by
    cases hstep with
    | acquireFast hl =>
      exact ⟨List.Pairwise.nil, fun x hx => absurd hx (List.not_mem_nil x)⟩
    | acquirePush p t hl hts =>
      exact ⟨List.Pairwise.nil, fun x hx => absurd hx (List.not_mem_nil x)⟩
    | futCancel id hid hpend =>
      exact ⟨List.Pairwise.nil, fun x hx => absurd hx (List.not_mem_nil x)⟩
    | release hh => exact maybeWake_min _ hinv.hinv
    | resumeOk id hid hres hwait => exact maybeWake_min _ hinv.hinv
    | resumeCancel id hid hnp hwait => exact maybeWake_min _ hinv.hinv
  exact ⟨hgr.1, hgr.2, hinv'.pend_heap⟩

/-- Witness for `c1_grant_order` at the concrete release step that grants
`csD` from state `cs7`. -/
theorem c1_grant_order_witness :
    List.Pairwise (fun x y => pwLt y x = false) [csD]
    ∧ (∀ x ∈ [csD], ∀ u ∈ cs8.heap, pwLt u x = false)
    ∧ (∀ k, k < cs8.infos.length → futAt cs8.infos k = .pending →
        ∃ w ∈ cs8.heap, w.id = k) :=
  c1_grant_order false 1 cs7 cs8 [csD] cs7_reachable cs8_step

/-- **C3**.  From any reachable state, `release()` grants at most one live
waiter: the grant list of `__release` has length at most one, every
granted waiter was live (pending future) at pop time and has its future
resolved afterwards, and the permit accounting shows discarded done or
cancelled waiters have no permit effect — the new permit count plus the
number of grants equals the old count plus the one released permit. -/
theorem c3_release_single_grant (strict : Bool) (N : Nat) (s : SemState)
    (hr : Reachable strict N s) (hh : 0 < s.holders) :
    (releaseRun s).2.length ≤ 1
    ∧ (∀ w ∈ (releaseRun s).2, futAt s.infos w.id = .pending
        ∧ futAt (releaseRun s).1.infos w.id = .resolved)
    ∧ (releaseRun s).1.value + (releaseRun s).2.length = s.value + 1 := by
  have hinv := reachable_inv strict N s hr
  have hids : ∀ w ∈ s.heap, w.id < s.infos.length := hinv.ids_lt
  have hrel2 : (releaseRun s).2 = (wakeLoop1 (s.value + 1) s.heap s.infos []).granted := rfl
  have hrel1v : (releaseRun s).1.value
      = (wakeLoop1 (s.value + 1) s.heap s.infos []).value := rfl
  have hrel1i : (releaseRun s).1.infos
      = (wakeLoop1 (s.value + 1) s.heap s.infos []).infos := rfl
  obtain ⟨g, hg1, hg2⟩ := wakeLoop1_granted (s.value + 1) s.heap s.infos []
  rw [List.nil_append] at hg1
  refine ⟨?_, ?_, ?_⟩
  · rcases Nat.eq_zero_or_pos s.value with hz | hpos
    · rw [hrel2, hg1]
      omega
    · have hempty := hinv.val_heap hpos
      rw [hrel2, hempty,
        wakeLoop1_eq_none _ [] _ _ (by omega) ((heappop_none []).mpr rfl)]
      simp
  · intro w hw
    rw [hrel2] at hw
    refine ⟨wakeLoop1_granted_pending _ _ _ _ hids w hw (List.not_mem_nil w), ?_⟩
    rw [hrel1i]
    exact wakeLoop1_granted_resolved _ _ _ _ hids w hw (List.not_mem_nil w)
  · rw [hrel1v, hrel2, hg1]
    omega

/-- Witness for `c3_release_single_grant` at the concrete state `cs7`. -/
theorem c3_release_single_grant_witness :
    (releaseRun cs7).2.length ≤ 1
    ∧ (∀ w ∈ (releaseRun cs7).2, futAt cs7.infos w.id = .pending
        ∧ futAt (releaseRun cs7).1.infos w.id = .resolved)
    ∧ (releaseRun cs7).1.value + (releaseRun cs7).2.length = cs7.value + 1 :=
  c3_release_single_grant false 1 cs7 cs7_reachable (by decide)

/-- **C4**.  Whenever a reachable semaphore has a free permit and no live
waiter, `__acquire` takes the fast path: `__locked()` is false, so the
acquire decrements `_value` and returns immediately without touching the
wait heap.  (On reachable states a free permit in fact forces the heap to
be empty, and resolved waiters are never in the heap, so the situation the
claim singles out — a queue holding only already-woken waiters — cannot
coexist with a free permit; the property holds for every reachable state
satisfying the claim's precondition.) -/
theorem c4_fast_path (strict : Bool) (N : Nat) (s : SemState)
    (hr : Reachable strict N s) (hv : 0 < s.value)
    (hlive : ∀ w ∈ s.heap, futAt s.infos w.id ≠ .pending) :
    lockedB s = false
    ∧ Step strict s (fastAcquire s) []
    ∧ (fastAcquire s).value + 1 = s.value
    ∧ (fastAcquire s).heap = s.heap := by
  have hinv := reachable_inv strict N s hr
  have hempty := hinv.val_heap hv
  have hlock : lockedB s = false := by
    simp only [lockedB, hempty, List.any_nil, Bool.or_false, beq_eq_false_iff_ne]
    omega
  refine ⟨hlock, Step.acquireFast s hlock, ?_, rfl⟩
  simp only [fastAcquire]
  omega

/-- Witness for `c4_fast_path` at the freshly constructed semaphore
`cs0 = PrioritySemaphore(1)`. -/
theorem c4_fast_path_witness :
    lockedB cs0 = false
    ∧ Step false cs0 (fastAcquire cs0) []
    ∧ (fastAcquire cs0).value + 1 = cs0.value
    ∧ (fastAcquire cs0).heap = cs0.heap :=
  c4_fast_path false 1 cs0 Reachable.init (by decide)
    (fun w hw => absurd hw (List.not_mem_nil w))

/-- **C5**.  Permit conservation: in every reachable state the free permits
plus the permits held plus the grants in flight equal the initial permit
count; consequently once every holder has released and every in-flight
grant has been consumed or returned, the count is back to the initial
value — cancelling queued acquires never leaks or double-counts a permit.
The cancellation race is handled by the `except CancelledError` handler
(lines 175-178): when the future was resolved (a grant raced with the
cancellation) the permit is incremented back (`cancelHandler .resolved`)
before the cancellation propagates; for a cancelled future no permit is
returned. -/
theorem c5_permit_conservation (strict : Bool) (N : Nat) (s : SemState)
    (hr : Reachable strict N s) :
    s.value + s.holders + inFlight s = N
    ∧ (s.holders = 0 → inFlight s = 0 → s.value = N)
    ∧ (∀ v : Nat, cancelHandler .resolved v = v + 1)
    ∧ (∀ v : Nat, cancelHandler .fcancelled v = v) := by
  have hinv := reachable_inv strict N s hr
  refine ⟨hinv.acc, ?_, fun v => rfl, fun v => rfl⟩
  intro h0 h1
  have := hinv.acc
  omega

theorem cs9_reachable : Reachable false 1 (resumeCancelRun cs8 3).1 := by
  have h8 : Reachable false 1 cs8 :=
    Reachable.step cs7 cs8 [csD] cs7_reachable cs8_step
  exact Reachable.step cs8 _ _ h8
    (Step.resumeCancel cs8 3 (by decide) (by decide) (by decide))

/-- Witness for `c5_permit_conservation` at the state reached after the
cancellation race: waiter `csD` was granted in `cs8` and its acquirer is
then cancelled, so the handler returns the permit. -/
theorem c5_permit_conservation_witness :
    (resumeCancelRun cs8 3).1.value + (resumeCancelRun cs8 3).1.holders
        + inFlight (resumeCancelRun cs8 3).1 = 1
    ∧ ((resumeCancelRun cs8 3).1.holders = 0 →
        inFlight (resumeCancelRun cs8 3).1 = 0 →
        (resumeCancelRun cs8 3).1.value = 1)
    ∧ (∀ v : Nat, cancelHandler .resolved v = v + 1)
    ∧ (∀ v : Nat, cancelHandler .fcancelled v = v) :=
  c5_permit_conservation false 1 (resumeCancelRun cs8 3).1 cs9_reachable

/-- **C6** (counterexample).  The claim says every waiter carries a
strictly increasing arrival-sequence number, making the waiter order a
strict total order with no ties.  The arrival tag is `loop.time()`, which
is only monotone: in the reachable state `cs3`, the two distinct waiters
`csA` and `csB` (arrival ids 0 and 1) carry the same timestamp and the
same priority, and `PriorityWaiter.__lt__` holds in neither direction — a
tie, so the order is not a strict total order on these waiters. -/
theorem c6_counterexample :
    Reachable false 1 cs3
    ∧ csA ∈ cs3.heap
    ∧ csB ∈ cs3.heap
    ∧ csA ≠ csB
    ∧ csA.ts = csB.ts
    ∧ pwLt csA csB = false
    ∧ pwLt csB csA = false := by
  refine ⟨cs3_reachable, by decide, by decide, by decide, by decide, by decide,
    by decide⟩

/-- **C6** (amended).  The waiter comparison is a strict weak order
(irreflexive, asymmetric, transitive), and whenever the event-loop clock
strictly increases between waiter creations, the waiters simultaneously in
the heap of a reachable state are totally ordered with no ties: any two
distinct ones compare strictly in one direction. -/
theorem c6_strict_clock_order (N : Nat) (s : SemState)
    (hr : Reachable true N s) :
    (∀ v ∈ s.heap, ∀ w ∈ s.heap, v ≠ w → pwLt v w = true ∨ pwLt w v = true)
    ∧ (∀ a b : PriorityWaiter, pwLt a b = true → pwLt b a = false)
    ∧ (∀ a : PriorityWaiter, pwLt a a = false)
    ∧ (∀ a b c : PriorityWaiter, pwLt a b = true → pwLt b c = true →
        pwLt a c = true) := by
  have hnod := reachable_strict_ts_nodup N s hr
  refine ⟨?_, fun a b => pwLt_asymm, pwLt_irrefl,
    fun a b c => pwLt_trans⟩
  intro v hv w hw hne
  by_cases hts : v.ts = w.ts
  · exfalso
    exact hne (List.inj_on_of_nodup_map hnod hv hw hts)
  · exact pwLt_total (Or.inr hts)

/-- Witness for `c6_strict_clock_order` at the strictly-clocked state
`ss3` holding two waiters with timestamps 1 and 2. -/
theorem c6_strict_clock_order_witness :
    (∀ v ∈ ss3.heap, ∀ w ∈ ss3.heap, v ≠ w → pwLt v w = true ∨ pwLt w v = true)
    ∧ (∀ a b : PriorityWaiter, pwLt a b = true → pwLt b a = false)
    ∧ (∀ a : PriorityWaiter, pwLt a a = false)
    ∧ (∀ a b c : PriorityWaiter, pwLt a b = true → pwLt b c = true →
        pwLt a c = true) :=
  c6_strict_clock_order 1 ss3 ss3_reachable

/-- **C2**.  Memoization single flight: when the key is present (whatever
the completion state of the stored task — the wrapper never inspects it,
so pending, resolved and failed tasks are returned alike and a failure is
not retried), the wrapped call returns the stored shared handle, leaves
the cache unchanged and does not run the factory; a whole sequence of such
calls runs the factory zero times; from an absent key, a sequence of calls
returns the one shared handle created by the first call and runs the
factory exactly once.  The bounded variant returns a present entry the
same way (it only refreshes recency). -/
theorem c2_single_flight (ttl : Option Int) (cache : List (Nat × Nat))
    (key newTask t0 : Nat) (tasks : List Nat) (lcache : LRU) (lt0 lnew : Nat) :
    (dictGet cache key = some t0 →
      wrappedCall ttl cache key newTask = ⟨t0, cache, false, false⟩)
    ∧ (dictGet cache key = some t0 →
      callSeq ttl cache key tasks = (List.replicate tasks.length t0, cache, 0))
    ∧ (dictGet cache key = none → ∀ t ts, callSeq ttl cache key (t :: ts)
        = (t :: List.replicate ts.length t, dictInsert cache key t, 1))
    ∧ (dictGet lcache.entries key = some lt0 →
        (lruWrappedCall ttl lcache key lnew).task = lt0
        ∧ (lruWrappedCall ttl lcache key lnew).ranFactory = false) := by
  refine ⟨?_, ?_, ?_, ?_⟩
  · intro h
    simp [wrappedCall, h]
  · intro h
    exact callSeq_present ttl cache key t0 tasks h
  · intro h t ts
    exact callSeq_absent ttl cache key t ts h
  · intro h
    simp [lruWrappedCall, LRU.get, h]

/-- Witness for `c2_single_flight`: a cache holding task 77 under key 5
keeps returning 77 with no factory run; from an empty cache two calls
share the first task 9 and run the factory once. -/
theorem c2_single_flight_witness :
    wrappedCall none [(5, 77)] 5 9 = ⟨77, [(5, 77)], false, false⟩
    ∧ callSeq none [(5, 77)] 5 [9, 10] = ([77, 77], [(5, 77)], 0)
    ∧ callSeq none [] 5 [9, 10] = ([9, 9], [(5, 9)], 1)
    ∧ (lruWrappedCall none ⟨2, [(5, 77)]⟩ 5 9).task = 77 := by
  have h1 := c2_single_flight none [(5, 77)] 5 9 77 [9, 10] ⟨2, [(5, 77)]⟩ 77 9
  have h2 := c2_single_flight none [] 5 9 77 [9, 10] ⟨2, [(5, 77)]⟩ 77 9
  refine ⟨h1.1 rfl, ?_, ?_, (h1.2.2.2 rfl).1⟩
  · have := h1.2.1 rfl
    simpa using this
  · have := h2.2.2.1 rfl 9 [10]
    simpa using this

/-- **C7** (counterexample).  The claim says a TTL removal firing after the
key was replaced by a newer entry is a no-op and does not delete the
replacement.  In `lrutaskcache` the scheduled removal is `cache.remove(key)`
keyed only by the key: with `maxsize = 1` and a TTL, key 0 is first cached
as task 100 (arming a removal); inserting key 1 evicts it; calling key 0
again inserts the replacement task 102; when the stale timer for task 100
fires, `cache.remove 0` deletes the replacement entry — not a no-op. -/
theorem c7_counterexample :
    (lruWrappedCall (some 5) ⟨1, []⟩ 0 100).cache = (⟨1, [(0, 100)]⟩ : LRU)
    ∧ (lruWrappedCall (some 5) ⟨1, []⟩ 0 100).scheduledRemoval = true
    ∧ (lruWrappedCall (some 5) ⟨1, [(0, 100)]⟩ 1 101).cache = (⟨1, [(1, 101)]⟩ : LRU)
    ∧ (lruWrappedCall (some 5) ⟨1, [(1, 101)]⟩ 0 102).cache = (⟨1, [(0, 102)]⟩ : LRU)
    ∧ dictGet [(0, 102)] 0 = some 102
    ∧ (102 ≠ 100)
    ∧ ttlFireLru ⟨1, [(0, 102)]⟩ 0 = (⟨1, []⟩ : LRU)
    ∧ dictGet (ttlFireLru ⟨1, [(0, 102)]⟩ 0).entries 0 = none := by
  refine ⟨by decide, by decide, by decide, by decide, by decide, by decide,
    by decide, by decide⟩

/-- **C7** (amended).  With a TTL configured, a removal is scheduled
exactly when the call inserts a new entry; it is registered by a done
callback, so it fires `ttl` time units after the task's completion time,
not after call time; at fire time removing an already-absent key is a
no-op (for both cache variants); but if the key is present it is removed
unconditionally — including a replacement entry inserted after an earlier
eviction, as `c7_counterexample` shows. -/
theorem c7_ttl_removal (ttlOpt : Option Int) (cache : List (Nat × Nat))
    (key newTask : Nat) (completion ttl : Int) (l : LRU) :
    ((wrappedCall ttlOpt cache key newTask).scheduledRemoval = true
      ↔ (dictGet cache key = none ∧ ttlOpt.isSome = true))
    ∧ ttlFireTime completion ttl = completion + ttl
    ∧ (dictGet cache key = none → ttlFirePlain cache key = cache)
    ∧ (dictGet l.entries key = none → ttlFireLru l key = l)
    ∧ ((cache.map Prod.fst).Nodup →
        dictGet (ttlFirePlain cache key) key = none) := by
  refine ⟨?_, rfl, ?_, ?_, ?_⟩
  · cases hget : dictGet cache key with
    | some cached => simp [wrappedCall, hget]
    | none => simp [wrappedCall, hget]
  · intro h
    exact dictPop_absent cache key h
  · intro h
    obtain ⟨m, e⟩ := l
    simp only [ttlFireLru, LRU.remove]
    rw [dictPop_absent e key h]
  · intro hn
    exact dictGet_pop_self cache key hn

/-- Witness for `c7_ttl_removal` at concrete caches. -/
theorem c7_ttl_removal_witness :
    ((wrappedCall (some 5) [(3, 30)] 7 70).scheduledRemoval = true
      ↔ (dictGet [(3, 30)] 7 = none ∧ (some (5 : Int)).isSome = true))
    ∧ ttlFireTime 11 5 = 11 + 5
    ∧ (dictGet [(3, 30)] 7 = none → ttlFirePlain [(3, 30)] 7 = [(3, 30)])
    ∧ (dictGet (⟨1, [(3, 30)]⟩ : LRU).entries 7 = none →
        ttlFireLru ⟨1, [(3, 30)]⟩ 7 = (⟨1, [(3, 30)]⟩ : LRU))
    ∧ (([(3, 30), (7, 70)].map Prod.fst).Nodup →
        dictGet (ttlFirePlain [(3, 30), (7, 70)] 7) 7 = none) := by
  have h1 := c7_ttl_removal (some 5) [(3, 30)] 7 70 11 5 ⟨1, [(3, 30)]⟩
  have h2 := c7_ttl_removal (some 5) [(3, 30), (7, 70)] 7 70 11 5 ⟨1, [(3, 30)]⟩
  exact ⟨h1.1, h1.2.1, h1.2.2.1, h1.2.2.2.1, h2.2.2.2.2⟩

/-- **C8** (spec-modelled: `remove_entry` is not in the repository
snapshot; modelled from spec sections 4.4 and 8).  `remove_entry` never
raises: it always returns a cache; it removes exactly the entry for the
computed key — afterwards the key is absent and every other key is
untouched; and removing an absent key returns the cache unchanged, with no
error. -/
theorem c8_remove_entry (cache : List (Nat × Nat)) (key : Nat)
    (hn : (cache.map Prod.fst).Nodup) :
    removeEntry cache key = Except.ok (dictPop cache key)
    ∧ dictGet (dictPop cache key) key = none
    ∧ (∀ j, j ≠ key → dictGet (dictPop cache key) j = dictGet cache j)
    ∧ (dictGet cache key = none → removeEntry cache key = Except.ok cache) := by
  refine ⟨rfl, dictGet_pop_self cache key hn,
    fun j hj => dictGet_pop_ne cache key j hj, ?_⟩
  intro h
  simp only [removeEntry]
  rw [dictPop_absent cache key h]

/-- Witness for `c8_remove_entry` at a concrete two-entry cache. -/
theorem c8_remove_entry_witness :
    removeEntry [(3, 30), (7, 70)] 7 = Except.ok (dictPop [(3, 30), (7, 70)] 7)
    ∧ dictGet (dictPop [(3, 30), (7, 70)] 7) 7 = none
    ∧ (∀ j, j ≠ 7 → dictGet (dictPop [(3, 30), (7, 70)] 7) j
        = dictGet [(3, 30), (7, 70)] j)
    ∧ (dictGet [(3, 30), (7, 70)] 7 = none →
        removeEntry [(3, 30), (7, 70)] 7 = Except.ok [(3, 30), (7, 70)]) :=
  c8_remove_entry [(3, 30), (7, 70)] 7 (by decide)

/-- **C9** (counterexample).  The claim says the semaphore binds to the
first context that calls acquire *or release*, and any later acquire or
release from another context fails.  In the code `__release` never calls
`_get_loop` — a release from a different loop than the bound one succeeds
— and a fast-path acquire returns before `_get_loop` is reached, so the
first (non-blocking) acquire does not bind at all. -/
theorem c9_counterexample :
    releaseLoopEffect (some 1) 2 = Except.ok (some 1)
    ∧ acquireLoopEffect none 1 false = Except.ok none := by
  exact ⟨rfl, rfl⟩

/-- **C9** (amended).  Only a suspending (slow-path) acquire consults the
loop: the first such acquire binds the semaphore to its running loop; a
later suspending acquire from a different loop raises `RuntimeError`; one
from the same loop succeeds; fast-path acquires and releases neither check
nor bind. -/
theorem c9_loop_binding (b r : Nat) (bound : Option Nat) (hbr : b ≠ r) :
    acquireLoopEffect none r true = Except.ok (some r)
    ∧ acquireLoopEffect (some b) r true = Except.error ()
    ∧ acquireLoopEffect (some r) r true = Except.ok (some r)
    ∧ acquireLoopEffect bound r false = Except.ok bound
    ∧ releaseLoopEffect bound r = Except.ok bound := by
  refine ⟨?_, ?_, ?_, rfl, rfl⟩
  · simp [acquireLoopEffect, getLoop]
  · simp [acquireLoopEffect, getLoop, Ne.symm hbr]
  · simp [acquireLoopEffect, getLoop]

/-- Witness for `c9_loop_binding` with loops 1 and 2. -/
theorem c9_loop_binding_witness :
    acquireLoopEffect none 2 true = Except.ok (some 2)
    ∧ acquireLoopEffect (some 1) 2 true = Except.error ()
    ∧ acquireLoopEffect (some 2) 2 true = Except.ok (some 2)
    ∧ acquireLoopEffect (some 5) 2 false = Except.ok (some 5)
    ∧ releaseLoopEffect (some 5) 2 = Except.ok (some 5) :=
  c9_loop_binding 1 2 (some 5) (by decide)

/-- **C10**.  With `ttl = None` (the default) neither decorator ever
registers a removal callback when inserting; an entry of the unbounded
cache, once present, is returned unchanged by every later call with any
arguments; and a run of calls with pairwise-distinct fresh keys grows the
unbounded cache by one entry per key — it grows without limit. -/
theorem c10_no_ttl_forever (cache : List (Nat × Nat)) (key newTask : Nat)
    (l : LRU) (calls : List (Nat × Nat)) (k0 t0 : Nat) :
    (wrappedCall none cache key newTask).scheduledRemoval = false
    ∧ (lruWrappedCall none l key newTask).scheduledRemoval = false
    ∧ (dictGet cache k0 = some t0 →
        dictGet (callAny none cache calls) k0 = some t0)
    ∧ ((∀ p ∈ calls, dictGet cache p.1 = none) →
        (calls.map Prod.fst).Nodup →
        (callAny none cache calls).length = cache.length + calls.length) := by
  refine ⟨?_, ?_, ?_, ?_⟩
  · cases hget : dictGet cache key with
    | some cached => simp [wrappedCall, hget]
    | none => simp [wrappedCall, hget]
  · cases hget : dictGet l.entries key with
    | some cached => simp [lruWrappedCall, LRU.get, hget]
    | none => simp [lruWrappedCall, LRU.get, hget]
  · intro h
    exact callAny_preserves none cache calls k0 t0 h
  · intro habs hnd
    exact callAny_growth none cache calls habs hnd

/-- Witness for `c10_no_ttl_forever` at a concrete cache and three
distinct-key calls. -/
theorem c10_no_ttl_forever_witness :
    (wrappedCall none [(5, 77)] 5 9).scheduledRemoval = false
    ∧ (lruWrappedCall none ⟨2, [(5, 77)]⟩ 5 9).scheduledRemoval = false
    ∧ dictGet (callAny none [(5, 77)] [(1, 10), (2, 20), (3, 30)]) 5 = some 77
    ∧ (callAny none [(5, 77)] [(1, 10), (2, 20), (3, 30)]).length
        = [(5, 77)].length + [(1, 10), (2, 20), (3, 30)].length := by
  have h := c10_no_ttl_forever [(5, 77)] 5 9 ⟨2, [(5, 77)]⟩
    [(1, 10), (2, 20), (3, 30)] 5 77
  refine ⟨h.1, h.2.1, h.2.2.1 rfl, h.2.2.2 ?_ (by decide)⟩
  intro p hp
  fin_cases hp <;> rfl

end AsyncUtils
